import Mathlib

/-!
Verification of the stream framer in `pygpsclient/socket_handler.py`.

The framer (`SocketHandler.parse_buffer` and its helpers `parse_ubx`,
`parse_nmea`, `parse_rtcm`, `_read_bytes`) scans a byte buffer for one of
three protocol sync headers (UBX `b5 62`, NMEA `24 47` / `24 50`, RTCM3
`d3` with the upper six bits of the second byte zero), determines the
total frame length from protocol-specific header fields, slices the frame
out, hands it to the protocol decoder, enqueues the (raw, parsed) pair and
returns the unconsumed suffix of the buffer.

Shallow embedding conventions:
* a buffer (`bytearray` / `bytes`) is a `List Nat` of byte values;
* the three external decoders (`UBXReader.parse`, `NMEAReader.parse`,
  `RTCMReader.parse` from the pyubx2 / pynmeagps / pyrtcm libraries, out
  of scope per the spec) are opaque parameters of type
  `List Nat → Except ε α`: `.ok` models a normal return, `.error` models
  the parse exception those libraries raise on a rejected payload;
* `EOFError` raised by `_read_bytes` (insufficient buffered data) is the
  `none` of an `Option`, matching the `try`/`except EOFError` structure of
  `parse_buffer`, which catches only `EOFError`;
* the `while start < len(buf)` loop of `parse_buffer` and the inner drain
  loop of `_read_thread` are written with an explicit fuel argument
  (structural recursion); the wrappers supply fuel that the loops can
  never exhaust, so the fueled functions compute exactly the loops.
-/

namespace SocketHandler

/-- Model of `pyubx2.ubxtypes_core.UBX_HDR = b"\xb5\x62"` (external constant used by
`parse_buffer` for classification). -/
def UBX_HDR : List Nat := [0xB5, 0x62]

/-- Model of `pyubx2.ubxtypes_core.NMEA_HDR = [b"\x24\x47", b"\x24\x50"]` (external
constant used by `parse_buffer`: the recognized NMEA leading variants
`$G`, `$P`). -/
def NMEA_HDR : List (List Nat) := [[0x24, 0x47], [0x24, 0x50]]

/-- The CRLF terminator literal `b"\x0d\x0a"` compared against in
`parse_nmea`. -/
def CRLF_B : List Nat := [0x0D, 0x0A]

/-- Model of `SocketHandler._read_bytes(buf, start, num)`: returns
`buf[start : start + num]`, raising `EOFError` (here `none`) when
`len(buf) < start + num`. -/
def readBytes (buf : List Nat) (start num : Nat) : Option (List Nat) :=
  if buf.length < start + num then none
  else some ((buf.drop start).take num)

/-- Model of `int.from_bytes(bs, "little", signed=False)`. -/
def intFromBytesLE (bs : List Nat) : Nat :=
  bs.foldr (fun b acc => b + 256 * acc) 0

/-- The three protocol decoders handed to the framer
(`UBXReader.parse`, `NMEAReader.parse`, `RTCMReader.parse`); opaque
external functions, `.error` modelling a raised parse exception. -/
structure Decoders (ε α : Type) where
  ubx : List Nat → Except ε α
  nmea : List Nat → Except ε α
  rtcm : List Nat → Except ε α

section Framer

variable {ε α : Type}

/-- Model of `SocketHandler.parse_ubx(buf, start, hdr)`.
`none` = `EOFError` escaped from `_read_bytes`; `some (.error e)` = the
decoder raised; `some (.ok (raw, parsed))` = normal return. -/
def parse_ubx (dec : List Nat → Except ε α) (buf : List Nat) (start : Nat)
    (hdr : List Nat) : Option (Except ε (List Nat × α)) :=
  match readBytes buf (start + 2) 4 with
  | none => none
  | some byten =>
    let lenb := intFromBytesLE ((byten.drop 2).take 2)
    match readBytes buf (start + 6) (lenb + 2) with
    | none => none
    | some byten2 =>
      let raw_data := hdr ++ byten ++ byten2
      match dec raw_data with
      | .error e => some (.error e)
      | .ok p => some (.ok (raw_data, p))

/-- The `while True` scan of `parse_nmea`: grows `i` until
`buf[start+2 : start+2+i]` ends with CRLF, `EOFError` (= `none`) when the
buffer runs out first.  Fuel is an upper bound on the number of loop
iterations; `parse_nmea` supplies `buf.length + 1`, which the loop cannot
exhaust before `_read_bytes` fails. -/
def nmeaScan (buf : List Nat) (start : Nat) : Nat → Nat → Option (List Nat)
  | 0, _ => none
  | fuel + 1, i =>
    match readBytes buf (start + 2) i with
    | none => none
    | some byten =>
      if byten.drop (byten.length - 2) = CRLF_B then some byten
      else nmeaScan buf start fuel (i + 1)

/-- Model of `SocketHandler.parse_nmea(buf, start, hdr)`. -/
def parse_nmea (dec : List Nat → Except ε α) (buf : List Nat) (start : Nat)
    (hdr : List Nat) : Option (Except ε (List Nat × α)) :=
  match nmeaScan buf start (buf.length + 1) 1 with
  | none => none
  | some byten =>
    let raw_data := hdr ++ byten
    match dec raw_data with
    | .error e => some (.error e)
    | .ok p => some (.ok (raw_data, p))

/-- Model of `SocketHandler.parse_rtcm(buf, start, hdr)`. -/
def parse_rtcm (dec : List Nat → Except ε α) (buf : List Nat) (start : Nat)
    (hdr : List Nat) : Option (Except ε (List Nat × α)) :=
  match readBytes buf (start + 2) 1 with
  | none => none
  | some hdr3 =>
    let lenb := hdr3.getD 0 0 ||| (hdr.getD 1 0 <<< 8)
    match readBytes buf (start + 3) (lenb + 3) with
    | none => none
    | some byten =>
      let raw_data := hdr ++ hdr3 ++ byten
      match dec raw_data with
      | .error e => some (.error e)
      | .ok p => some (.ok (raw_data, p))

/-- The tail of a successful classification branch in `parse_buffer`:
on `EOFError` (`none`) `break` with the buffer untouched; on a decoder
exception let it propagate (`.error`); on success enqueue the pair and
set `buf_remain = buf[start + len(raw_data):]`. -/
def finishFrame (buf : List Nat) (start : Nat) :
    Option (Except ε (List Nat × α)) →
    Except ε (Option (List Nat × α) × List Nat)
  | none => .ok (none, buf)
  | some (.error e) => .error e
  | some (.ok (raw, p)) => .ok (some (raw, p), buf.drop (start + raw.length))

/-- The `while start < len(buf)` loop of `SocketHandler.parse_buffer`,
with the loop counter `start` explicit and fuel bounding the number of
iterations.  The result pairs the enqueued `(raw_data, parsed_data)` (or
`none` when nothing was enqueued) with the returned `buf_remain`; a
`.error` is a decoder exception escaping `parse_buffer` (its
`try` catches only `EOFError`). -/
def parseBufferAux (dec : Decoders ε α) (buf : List Nat) :
    Nat → Nat → Except ε (Option (List Nat × α) × List Nat)
  | 0, _ => .ok (none, buf)
  | fuel + 1, start =>
    if start < buf.length then
      if buf.getD start 0 = 0x24 ∨ buf.getD start 0 = 0xB5 ∨
          buf.getD start 0 = 0xD3 then
        match readBytes buf (start + 1) 1 with
        | none => .ok (none, buf)
        | some byte2 =>
          if [buf.getD start 0] ++ byte2 = UBX_HDR then
            finishFrame buf start
              (parse_ubx dec.ubx buf start ([buf.getD start 0] ++ byte2))
          else if [buf.getD start 0] ++ byte2 ∈ NMEA_HDR then
            finishFrame buf start
              (parse_nmea dec.nmea buf start ([buf.getD start 0] ++ byte2))
          else if buf.getD start 0 = 0xD3 ∧ (byte2.getD 0 0) &&& 0xFC = 0 then
            finishFrame buf start
              (parse_rtcm dec.rtcm buf start ([buf.getD start 0] ++ byte2))
          else
            parseBufferAux dec buf fuel (start + 2)
      else
        parseBufferAux dec buf fuel (start + 1)
    else .ok (none, buf)

/-- Model of `SocketHandler.parse_buffer(buf)`.  Here `start` begins at 0; the loop runs
at most `len(buf)` iterations (each advances `start` by at least 1), so fuel
`buf.length` makes the fueled loop exact. -/
def parse_buffer (dec : Decoders ε α) (buf : List Nat) :
    Except ε (Option (List Nat × α) × List Nat) :=
  parseBufferAux dec buf buf.length 0

/-- The inner drain loop of `SocketHandler._read_thread`:
`while True: raw, buf = self.parse_buffer(buf); if raw is None: break`,
collecting the enqueued pairs in order.  Each emission consumes at least
two bytes, so fuel `buf.length + 1` (supplied by `drain`) is never
exhausted. -/
def drainAux (dec : Decoders ε α) :
    Nat → List Nat → Except ε (List (List Nat × α) × List Nat)
  | 0, buf => .ok ([], buf)
  | fuel + 1, buf =>
    match parse_buffer dec buf with
    | .error e => .error e
    | .ok (none, buf2) => .ok ([], buf2)
    | .ok (some f, buf2) =>
      match drainAux dec fuel buf2 with
      | .error e => .error e
      | .ok (fs, buf3) => .ok (f :: fs, buf3)

/-- One full drain of the buffer, as `_read_thread` performs after
appending each received chunk. -/
def drain (dec : Decoders ε α) (buf : List Nat) :
    Except ε (List (List Nat × α) × List Nat) :=
  drainAux dec (buf.length + 1) buf

/-- The read loop of `_read_thread` over a list of received chunks:
`buf += data` then drain, repeatedly; collects all enqueued pairs. -/
def feedChunks (dec : Decoders ε α) :
    List (List Nat) → List Nat → Except ε (List (List Nat × α) × List Nat)
  | [], buf => .ok ([], buf)
  | c :: cs, buf =>
    match drain dec (buf ++ c) with
    | .error e => .error e
    | .ok (fs, buf2) =>
      match feedChunks dec cs buf2 with
      | .error e => .error e
      | .ok (fs2, buf3) => .ok (fs ++ fs2, buf3)

end Framer

/-- A complete well-formed UBX frame: sync `b5 62`, 4-byte sub-header
whose bytes 3 and 4 (little-endian) give the payload length, total length
`2 + 4 + L + 2`. -/
def IsUBXFrame (f : List Nat) : Prop :=
  f.take 2 = UBX_HDR ∧ 8 ≤ f.length ∧
  f.length = 8 + intFromBytesLE ((f.drop 4).take 2)

/-- A complete well-formed NMEA sentence: a recognized 2-byte header, a
CRLF terminator at the very end and nowhere else (as a 2-byte window
starting at an offset of at least 2, the windows the `parse_nmea` scan
inspects). -/
def IsNMEAFrame (f : List Nat) : Prop :=
  f.take 2 ∈ NMEA_HDR ∧ 4 ≤ f.length ∧ f.drop (f.length - 2) = CRLF_B ∧
  ∀ i < f.length, 2 ≤ i → i + 2 ≤ f.length →
    ((f.drop i).take 2 = CRLF_B ↔ i + 2 = f.length)

/-- A complete well-formed RTCM3 frame: sync `d3`, upper six bits of the
second byte zero, 10-bit length `L = byte3 ||| (byte2 <<< 8)`, total
length `2 + 1 + L + 3`. -/
def IsRTCMFrame (f : List Nat) : Prop :=
  f.getD 0 0 = 0xD3 ∧ (f.getD 1 0) &&& 0xFC = 0 ∧ 6 ≤ f.length ∧
  f.length = 6 + ((f.getD 2 0) ||| ((f.getD 1 0) <<< 8))

/-- A complete frame of any of the three recognized protocols. -/
def IsFrame (f : List Nat) : Prop :=
  IsUBXFrame f ∨ IsNMEAFrame f ∨ IsRTCMFrame f

instance IsUBXFrame.instDecidable (f : List Nat) : Decidable (IsUBXFrame f) := by
  unfold IsUBXFrame; infer_instance

instance IsNMEAFrame.instDecidable (f : List Nat) : Decidable (IsNMEAFrame f) := by
  unfold IsNMEAFrame; infer_instance

instance IsRTCMFrame.instDecidable (f : List Nat) : Decidable (IsRTCMFrame f) := by
  unfold IsRTCMFrame; infer_instance

instance IsFrame.instDecidable (f : List Nat) : Decidable (IsFrame f) := by
  unfold IsFrame; infer_instance

/-- A noise byte: matches none of the recognized first sync bytes, so the
scan skips it one byte at a time. -/
def NoiseByte (b : Nat) : Prop :=
  b ≠ 0x24 ∧ b ≠ 0xB5 ∧ b ≠ 0xD3

instance NoiseByte.instDecidable (b : Nat) : Decidable (NoiseByte b) := by
  unfold NoiseByte; infer_instance

/-- A recognized 2-byte sync header, as classified by `parse_buffer`:
the UBX header, an NMEA header, or RTCM3 (`d3` with the second byte's
upper six bits zero). -/
def ValidHdr (h : List Nat) : Prop :=
  h = UBX_HDR ∨ h ∈ NMEA_HDR ∨
  (h.getD 0 0 = 0xD3 ∧ (h.getD 1 0) &&& 0xFC = 0)

instance ValidHdr.instDecidable (h : List Nat) : Decidable (ValidHdr h) := by
  unfold ValidHdr; infer_instance

/-- The decoder `parse_buffer` selects for a frame, by its classified
header. -/
def frameDecoder {ε α : Type} (dec : Decoders ε α) (f : List Nat) :
    Except ε α :=
  if f.take 2 = UBX_HDR then dec.ubx f
  else if f.take 2 ∈ NMEA_HDR then dec.nmea f
  else dec.rtcm f

/-- A stream of frames with a (possibly empty) noise gap before each
frame; the two lists are walked in lockstep. -/
def withNoise : List (List Nat) → List (List Nat) → List Nat
  | n :: ns, f :: fs => n ++ f ++ withNoise ns fs
  | _, _ => []

/-- Predicate `SeqSlices buf raws rem`: the byte spans `raws` occur in `buf` in
order, pairwise disjoint, each preceded by a (skipped) gap, with `rem`
the suffix left after the last one. -/
inductive SeqSlices : List Nat → List (List Nat) → List Nat → Prop
  | nil (b : List Nat) : SeqSlices b [] b
  | cons (gap raw : List Nat) {b rest : List Nat} {raws : List (List Nat)} :
      SeqSlices rest raws b → SeqSlices (gap ++ raw ++ rest) (raw :: raws) b

/-- Decoders that accept every payload, returning the raw bytes (used to
evaluate the framer on concrete inputs). -/
def decId : Decoders Unit (List Nat) :=
  ⟨fun r => .ok r, fun r => .ok r, fun r => .ok r⟩

/-- The UBX frame of the spec's concrete scenario: sync `b5 62`, class
`01`, id `02`, payload length 2 (`02 00` little-endian), payload
`aa bb`, and a 2-byte checksum — 10 bytes in total. -/
def c2ubx : List Nat :=
  [0xB5, 0x62, 0x01, 0x02, 0x02, 0x00, 0xAA, 0xBB, 0x11, 0x22]

/-- The text sentence of the spec's concrete scenario,
`"$GPGGA,12*38\r\n"`, as bytes — 14 bytes ending in CRLF. -/
def c2nmea : List Nat :=
  [0x24, 0x47, 0x50, 0x47, 0x47, 0x41, 0x2C, 0x31, 0x32, 0x2A, 0x33, 0x38,
   0x0D, 0x0A]

/-- The concrete scenario stream: the UBX frame immediately followed by
the text sentence. -/
def c2stream : List Nat := c2ubx ++ c2nmea

/-- A complete RTCM3 frame: sync `d3`, length field `0x002`, 2-byte
payload, 3-byte CRC — 8 bytes in total. -/
def c3rtcm : List Nat := [0xD3, 0x00, 0x02, 0xAA, 0xBB, 0xC1, 0xC2, 0xC3]

/-- Decoders that reject every payload (used to evaluate the framer when
the protocol parser raises on a corrupted payload). -/
def decFail : Decoders Unit (List Nat) :=
  ⟨fun _ => .error (), fun _ => .error (), fun _ => .error ()⟩

/-! ### Basic facts about `_read_bytes` and buffer slices -/

theorem readBytes_eq_some {buf bs : List Nat} {s n : Nat} :
    readBytes buf s n = some bs ↔
      s + n ≤ buf.length ∧ bs = (buf.drop s).take n := by
  constructor
  · intro h
    unfold readBytes at h
    split at h
    · exact absurd h (by simp)
    · rename_i hlen
      exact ⟨by omega, (Option.some_inj.mp h).symm⟩
  · rintro ⟨h1, rfl⟩
    unfold readBytes
    split
    · omega
    · rfl

theorem readBytes_append {buf : List Nat} {s n : Nat} (extra : List Nat)
    (h : s + n ≤ buf.length) :
    readBytes (buf ++ extra) s n = readBytes buf s n := by
  unfold readBytes
  rw [List.length_append]
  split
  · omega
  · split
    · omega
    · rw [List.drop_append_of_le_length (by omega),
        List.take_append_of_le_length (by simp [List.length_drop]; omega)]

theorem getD_of_drop {buf : List Nat} {s x : Nat} {xs : List Nat}
    (h : buf.drop s = x :: xs) : buf.getD s 0 = x := by
  have h0 : buf[s + 0]? = some x := by
    have h1 := List.getElem?_drop buf s 0
    rw [h] at h1
    simpa using h1.symm
  rw [Nat.add_zero] at h0
  simp [List.getD_eq_getElem?_getD, h0]

theorem getD_append {buf : List Nat} {s : Nat} (extra : List Nat)
    (h : s < buf.length) : (buf ++ extra).getD s 0 = buf.getD s 0 := by
  rw [List.getD_eq_getElem?_getD, List.getD_eq_getElem?_getD,
    List.getElem?_append_left h]

theorem take_two_of_le {buf : List Nat} {s : Nat} (h : s + 2 ≤ buf.length) :
    (buf.drop s).take 2 = [buf.getD s 0] ++ (buf.drop (s + 1)).take 1 := by
  have hs : s < buf.length := by omega
  have hd : buf.drop s = buf[s] :: buf.drop (s + 1) :=
    List.drop_eq_getElem_cons hs
  rw [hd, getD_of_drop hd]
  rfl

theorem getD_of_take {l : List Nat} {n i : Nat} (h : i < n) :
    (l.take n).getD i 0 = l.getD i 0 := by
  rw [List.getD_eq_getElem?_getD, List.getD_eq_getElem?_getD,
    List.getElem?_take, if_pos h]

/-! ### The CRLF scan of `parse_nmea` -/

/-- The 2-byte window `buf[start+2 : start+2+i][-2:]` inspected at scan
step `i` of `parse_nmea`. -/
def nmeaWindow (buf : List Nat) (s i : Nat) : List Nat :=
  ((buf.drop (s + 2)).take i).drop (i - 2)

theorem nmeaScan_eq_some {buf : List Nat} {s : Nat} :
    ∀ {fuel i bs}, nmeaScan buf s fuel i = some bs →
      ∃ j, i ≤ j ∧ s + 2 + j ≤ buf.length ∧
        bs = (buf.drop (s + 2)).take j ∧ nmeaWindow buf s j = CRLF_B ∧
        ∀ k, i ≤ k → k < j → nmeaWindow buf s k ≠ CRLF_B := by
  intro fuel
  induction fuel with
  | zero => intro i bs h; exact absurd h (by simp [nmeaScan])
  | succ fuel ih =>
    intro i bs h
    unfold nmeaScan at h
    cases hr : readBytes buf (s + 2) i with
    | none => rw [hr] at h; exact absurd h (by simp)
    | some byten =>
      simp only [hr] at h
      obtain ⟨hlen, hbyten⟩ := readBytes_eq_some.mp hr
      have hblen : byten.length = i := by
        rw [hbyten, List.length_take, List.length_drop]; omega
      by_cases hc : byten.drop (byten.length - 2) = CRLF_B
      · rw [if_pos hc] at h
        refine ⟨i, le_refl i, hlen, ?_, ?_, ?_⟩
        · rw [← (Option.some_inj.mp h), hbyten]
        · rw [nmeaWindow, ← hbyten, ← hblen]
          exact hc
        · intro k h1 h2; omega
      · rw [if_neg hc] at h
        obtain ⟨j, hj1, hj2, hj3, hj4, hj5⟩ := ih h
        refine ⟨j, by omega, hj2, hj3, hj4, ?_⟩
        intro k h1 h2
        rcases Nat.eq_or_lt_of_le h1 with heq | hlt
        · subst heq
          rw [nmeaWindow, ← hbyten, ← hblen]
          exact hc
        · exact hj5 k hlt h2

theorem nmeaScan_finds {buf : List Nat} {s j : Nat}
    (hlen : s + 2 + j ≤ buf.length)
    (hok : nmeaWindow buf s j = CRLF_B) :
    ∀ fuel i, i ≤ j →
      (∀ k, i ≤ k → k < j → nmeaWindow buf s k ≠ CRLF_B) →
      j + 1 ≤ fuel + i →
      nmeaScan buf s fuel i = some ((buf.drop (s + 2)).take j) := by
  intro fuel
  induction fuel with
  | zero => intro i h1 _ h3; omega
  | succ fuel ih =>
    intro i h1 hmin h3
    unfold nmeaScan
    have hr : readBytes buf (s + 2) i = some ((buf.drop (s + 2)).take i) :=
      readBytes_eq_some.mpr ⟨by omega, rfl⟩
    simp only [hr]
    have hblen : ((buf.drop (s + 2)).take i).length = i := by
      rw [List.length_take, List.length_drop]; omega
    rcases Nat.eq_or_lt_of_le h1 with heq | hlt
    · subst heq
      rw [if_pos (by rw [hblen]; exact hok)]
    · rw [if_neg (by rw [hblen]; exact hmin i (le_refl i) hlt)]
      exact ih (i + 1) hlt (fun k hk1 hk2 => hmin k (by omega) hk2) (by omega)

theorem nmeaScan_none {buf : List Nat} {s : Nat}
    (hfail : ∀ k, s + 2 + k ≤ buf.length → nmeaWindow buf s k ≠ CRLF_B) :
    ∀ fuel i, nmeaScan buf s fuel i = none := by
  intro fuel
  induction fuel with
  | zero => intro i; rfl
  | succ fuel ih =>
    intro i
    cases hr : readBytes buf (s + 2) i with
    | none => simp [nmeaScan, hr]
    | some byten =>
      obtain ⟨hlen, hbyten⟩ := readBytes_eq_some.mp hr
      have hblen : byten.length = i := by
        rw [hbyten, List.length_take, List.length_drop]; omega
      have hw := hfail i hlen
      rw [nmeaWindow] at hw
      have hc : byten.drop (byten.length - 2) ≠ CRLF_B := by
        rw [hblen, hbyten]; exact hw
      simp only [nmeaScan, hr]
      rw [if_neg hc]
      exact ih (i + 1)

theorem getD_drop (l : List Nat) (n m : Nat) :
    (l.drop n).getD m 0 = l.getD (n + m) 0 := by
  rw [List.getD_eq_getElem?_getD, List.getD_eq_getElem?_getD,
    List.getElem?_drop]

theorem nmeaWindow_append {buf : List Nat} {s k : Nat} (extra : List Nat)
    (h : s + 2 + k ≤ buf.length) :
    nmeaWindow (buf ++ extra) s k = nmeaWindow buf s k := by
  rw [nmeaWindow, nmeaWindow, List.drop_append_of_le_length (by omega),
    List.take_append_of_le_length (by rw [List.length_drop]; omega)]

/-! ### Characterization of the three protocol extractors -/

section FramerLemmas

variable {ε α : Type}

/-- The little-endian payload length `parse_ubx` reads at offset
`start + 4` (bytes 3 and 4 of the 4-byte sub-header). -/
def ubxLen (buf : List Nat) (s : Nat) : Nat :=
  intFromBytesLE ((buf.drop (s + 4)).take 2)

/-- The length field `parse_rtcm` computes:
`hdr3[0] | (hdr[1] << 8)` with `hdr3` the byte at `start + 2`. -/
def rtcmLen (buf : List Nat) (s : Nat) : Nat :=
  buf.getD (s + 2) 0 ||| (buf.getD (s + 1) 0 <<< 8)

theorem parse_ubx_spec {dec : List Nat → Except ε α} {buf : List Nat}
    {s : Nat} {hdr raw : List Nat} {p : α}
    (h : parse_ubx dec buf s hdr = some (.ok (raw, p))) :
    s + 2 + (ubxLen buf s + 6) ≤ buf.length ∧
    raw = hdr ++ (buf.drop (s + 2)).take (ubxLen buf s + 6) ∧
    dec raw = .ok p := by
  unfold parse_ubx at h
  cases h4 : readBytes buf (s + 2) 4 with
  | none => rw [h4] at h; exact absurd h (by simp)
  | some byten =>
    obtain ⟨hb4, hbyten⟩ := readBytes_eq_some.mp h4
    simp only [h4] at h
    have hlenb : intFromBytesLE ((byten.drop 2).take 2) = ubxLen buf s := by
      rw [hbyten, List.drop_take, List.drop_drop]
      norm_num [ubxLen, List.take_take]
    rw [hlenb] at h
    cases h2 : readBytes buf (s + 6) (ubxLen buf s + 2) with
    | none => rw [h2] at h; exact absurd h (by simp)
    | some byten2 =>
      obtain ⟨hb2, hbyten2⟩ := readBytes_eq_some.mp h2
      simp only [h2] at h
      cases hd : dec (hdr ++ byten ++ byten2) with
      | error e => rw [hd] at h; exact absurd h (by simp)
      | ok p2 =>
        rw [hd] at h
        have hraw : hdr ++ byten ++ byten2 = raw := by
          have := Option.some_inj.mp h
          exact (congrArg Prod.fst (Except.ok.inj this))
        have hp : p2 = p := by
          have := Option.some_inj.mp h
          exact (congrArg Prod.snd (Except.ok.inj this))
        have hcat : byten ++ byten2 = (buf.drop (s + 2)).take (ubxLen buf s + 6) := by
          rw [hbyten, hbyten2]
          have hd6 : buf.drop (s + 6) = (buf.drop (s + 2)).drop 4 := by
            rw [List.drop_drop]
          rw [hd6, ← List.take_add]
          congr 1
          omega
        refine ⟨by omega, ?_, ?_⟩
        · rw [← hraw, List.append_assoc, hcat]
        · rw [← hraw, hd, hp]

theorem parse_ubx_append {dec : List Nat → Except ε α} {buf : List Nat}
    {s : Nat} {hdr : List Nat} {res : Except ε (List Nat × α)}
    (extra : List Nat) (h : parse_ubx dec buf s hdr = some res) :
    parse_ubx dec (buf ++ extra) s hdr = some res := by
  unfold parse_ubx at h ⊢
  cases h4 : readBytes buf (s + 2) 4 with
  | none => rw [h4] at h; exact absurd h (by simp)
  | some byten =>
    obtain ⟨hb4, _⟩ := readBytes_eq_some.mp h4
    simp only [h4] at h
    cases h2 : readBytes buf (s + 6) (intFromBytesLE ((byten.drop 2).take 2) + 2) with
    | none => rw [h2] at h; exact absurd h (by simp)
    | some byten2 =>
      obtain ⟨hb2, _⟩ := readBytes_eq_some.mp h2
      simp only [h2] at h
      simp only [@readBytes_append buf (s + 2) 4 extra (by omega), h4,
        @readBytes_append buf (s + 6)
          (intFromBytesLE ((byten.drop 2).take 2) + 2) extra (by omega), h2]
      exact h

theorem parse_rtcm_spec {dec : List Nat → Except ε α} {buf : List Nat}
    {s : Nat} {hdr raw : List Nat} {p : α}
    (h : parse_rtcm dec buf s hdr = some (.ok (raw, p))) :
    s + 2 + ((buf.getD (s + 2) 0 ||| (hdr.getD 1 0 <<< 8)) + 4) ≤ buf.length ∧
    raw = hdr ++
      (buf.drop (s + 2)).take ((buf.getD (s + 2) 0 ||| (hdr.getD 1 0 <<< 8)) + 4) ∧
    dec raw = .ok p := by
  unfold parse_rtcm at h
  cases h1 : readBytes buf (s + 2) 1 with
  | none => rw [h1] at h; exact absurd h (by simp)
  | some hdr3 =>
    obtain ⟨hb1, hhdr3⟩ := readBytes_eq_some.mp h1
    simp only [h1] at h
    have hh3 : hdr3.getD 0 0 = buf.getD (s + 2) 0 := by
      rw [hhdr3, getD_of_take (by omega), getD_drop]
    rw [hh3] at h
    cases h2 : readBytes buf (s + 3)
        ((buf.getD (s + 2) 0 ||| (hdr.getD 1 0 <<< 8)) + 3) with
    | none => rw [h2] at h; exact absurd h (by simp)
    | some byten =>
      obtain ⟨hb2, hbyten⟩ := readBytes_eq_some.mp h2
      simp only [h2] at h
      cases hd : dec (hdr ++ hdr3 ++ byten) with
      | error e => rw [hd] at h; exact absurd h (by simp)
      | ok p2 =>
        rw [hd] at h
        have hraw : hdr ++ hdr3 ++ byten = raw :=
          congrArg Prod.fst (Except.ok.inj (Option.some_inj.mp h))
        have hp : p2 = p :=
          congrArg Prod.snd (Except.ok.inj (Option.some_inj.mp h))
        have hcat : hdr3 ++ byten = (buf.drop (s + 2)).take
            ((buf.getD (s + 2) 0 ||| (hdr.getD 1 0 <<< 8)) + 4) := by
          rw [hhdr3, hbyten]
          have hd3 : buf.drop (s + 3) = (buf.drop (s + 2)).drop 1 := by
            rw [List.drop_drop]
          rw [hd3, ← List.take_add]
          congr 1
          omega
        refine ⟨by omega, ?_, ?_⟩
        · rw [← hraw, List.append_assoc, hcat]
        · rw [← hraw, hd, hp]

theorem parse_rtcm_append {dec : List Nat → Except ε α} {buf : List Nat}
    {s : Nat} {hdr : List Nat} {res : Except ε (List Nat × α)}
    (extra : List Nat) (h : parse_rtcm dec buf s hdr = some res) :
    parse_rtcm dec (buf ++ extra) s hdr = some res := by
  unfold parse_rtcm at h ⊢
  cases h1 : readBytes buf (s + 2) 1 with
  | none => rw [h1] at h; exact absurd h (by simp)
  | some hdr3 =>
    obtain ⟨hb1, _⟩ := readBytes_eq_some.mp h1
    simp only [h1] at h
    cases h2 : readBytes buf (s + 3) ((hdr3.getD 0 0 ||| (hdr.getD 1 0 <<< 8)) + 3) with
    | none => rw [h2] at h; exact absurd h (by simp)
    | some byten =>
      obtain ⟨hb2, _⟩ := readBytes_eq_some.mp h2
      simp only [h2] at h
      simp only [@readBytes_append buf (s + 2) 1 extra (by omega), h1,
        @readBytes_append buf (s + 3)
          ((hdr3.getD 0 0 ||| (hdr.getD 1 0 <<< 8)) + 3) extra (by omega), h2]
      exact h

theorem parse_nmea_spec {dec : List Nat → Except ε α} {buf : List Nat}
    {s : Nat} {hdr raw : List Nat} {p : α}
    (h : parse_nmea dec buf s hdr = some (.ok (raw, p))) :
    ∃ j, 1 ≤ j ∧ s + 2 + j ≤ buf.length ∧
      raw = hdr ++ (buf.drop (s + 2)).take j ∧
      nmeaWindow buf s j = CRLF_B ∧
      (∀ k, 1 ≤ k → k < j → nmeaWindow buf s k ≠ CRLF_B) ∧
      dec raw = .ok p := by
  unfold parse_nmea at h
  cases hs : nmeaScan buf s (buf.length + 1) 1 with
  | none => rw [hs] at h; exact absurd h (by simp)
  | some byten =>
    obtain ⟨j, hj1, hj2, hj3, hj4, hj5⟩ := nmeaScan_eq_some hs
    simp only [hs] at h
    cases hd : dec (hdr ++ byten) with
    | error e => rw [hd] at h; exact absurd h (by simp)
    | ok p2 =>
      rw [hd] at h
      have hraw : hdr ++ byten = raw :=
        congrArg Prod.fst (Except.ok.inj (Option.some_inj.mp h))
      have hp : p2 = p :=
        congrArg Prod.snd (Except.ok.inj (Option.some_inj.mp h))
      exact ⟨j, hj1, hj2, by rw [← hraw, hj3], hj4, hj5,
        by rw [← hraw, hd, hp]⟩

theorem parse_nmea_append {dec : List Nat → Except ε α} {buf : List Nat}
    {s : Nat} {hdr : List Nat} {res : Except ε (List Nat × α)}
    (extra : List Nat) (h : parse_nmea dec buf s hdr = some res) :
    parse_nmea dec (buf ++ extra) s hdr = some res := by
  unfold parse_nmea at h ⊢
  cases hs : nmeaScan buf s (buf.length + 1) 1 with
  | none => rw [hs] at h; exact absurd h (by simp)
  | some byten =>
    obtain ⟨j, hj1, hj2, hj3, hj4, hj5⟩ := nmeaScan_eq_some hs
    have hs2 : nmeaScan (buf ++ extra) s ((buf ++ extra).length + 1) 1 =
        some (((buf ++ extra).drop (s + 2)).take j) := by
      apply nmeaScan_finds
      · rw [List.length_append]; omega
      · rw [nmeaWindow_append extra hj2]; exact hj4
      · exact hj1
      · intro k hk1 hk2
        rw [nmeaWindow_append extra (by omega)]
        exact hj5 k hk1 hk2
      · rw [List.length_append]; omega
    have htake : ((buf ++ extra).drop (s + 2)).take j = byten := by
      rw [List.drop_append_of_le_length (by omega),
        List.take_append_of_le_length (by rw [List.length_drop]; omega), hj3]
    simp only [hs] at h
    simp only [hs2, htake]
    exact h

theorem slice_of_drop {B f rest : List Nat} {s k n : Nat}
    (hdrop : B.drop s = f ++ rest) (h : k + n ≤ f.length) :
    (B.drop (s + k)).take n = (f.drop k).take n := by
  have h1 : B.drop (s + k) = f.drop k ++ rest := by
    rw [← List.drop_drop, hdrop, List.drop_append_of_le_length (by omega)]
  rw [h1, List.take_append_of_le_length (by rw [List.length_drop]; omega)]

theorem length_of_drop {B f rest : List Nat} {s : Nat}
    (hdrop : B.drop s = f ++ rest) (h : 1 ≤ f.length) :
    s + f.length + rest.length = B.length := by
  have h1 := congrArg List.length hdrop
  rw [List.length_drop, List.length_append] at h1
  omega

theorem parse_ubx_extract {dec : List Nat → Except ε α} {B f rest : List Nat}
    {s : Nat} {p : α} (hdrop : B.drop s = f ++ rest) (hf : IsUBXFrame f)
    (hd : dec f = .ok p) :
    parse_ubx dec B s (f.take 2) = some (.ok (f, p)) := by
  obtain ⟨hf1, hf2, hf3⟩ := hf
  have hB := length_of_drop hdrop (by omega)
  have h4 : readBytes B (s + 2) 4 = some ((f.drop 2).take 4) :=
    readBytes_eq_some.mpr ⟨by omega, (slice_of_drop hdrop (by omega)).symm⟩
  have hlenb : intFromBytesLE ((((f.drop 2).take 4).drop 2).take 2) =
      intFromBytesLE ((f.drop 4).take 2) := by
    rw [List.drop_take, List.drop_drop]
    norm_num [List.take_take]
  have h2 : readBytes B (s + 6) (intFromBytesLE ((f.drop 4).take 2) + 2) =
      some (f.drop 6) := by
    refine readBytes_eq_some.mpr ⟨by omega, ?_⟩
    rw [slice_of_drop hdrop (by omega),
      List.take_of_length_le (by rw [List.length_drop]; omega)]
  have hraw : f.take 2 ++ (f.drop 2).take 4 ++ f.drop 6 = f := by
    rw [List.append_assoc]
    have h6 : f.drop 6 = (f.drop 2).drop 4 := by rw [List.drop_drop]
    rw [h6, List.take_append_drop, List.take_append_drop]
  unfold parse_ubx
  simp only [h4, hlenb, h2, hraw, hd]

theorem parse_nmea_extract {dec : List Nat → Except ε α} {B f rest : List Nat}
    {s : Nat} {p : α} (hdrop : B.drop s = f ++ rest) (hf : IsNMEAFrame f)
    (hd : dec f = .ok p) :
    parse_nmea dec B s (f.take 2) = some (.ok (f, p)) := by
  obtain ⟨hf1, hf2, hf3, hf4⟩ := hf
  have hB := length_of_drop hdrop (by omega)
  have htk : (B.drop (s + 2)).take (f.length - 2) = f.drop 2 := by
    rw [slice_of_drop hdrop (by omega),
      List.take_of_length_le (by rw [List.length_drop])]
  have hscan : nmeaScan B s (B.length + 1) 1 =
      some ((B.drop (s + 2)).take (f.length - 2)) := by
    refine nmeaScan_finds ?_ ?_ (B.length + 1) 1 ?_ ?_ ?_
    · omega
    · rw [nmeaWindow, htk]
      have h22 : (2 : Nat) + (f.length - 2 - 2) = f.length - 2 := by omega
      rw [List.drop_drop, h22, hf3]
    · omega
    · intro k hk1 hk2
      rw [nmeaWindow, slice_of_drop hdrop (by omega)]
      rcases Nat.lt_or_ge k 2 with hk | hk
      · intro hcon
        have hlen := congrArg List.length hcon
        rw [List.length_drop, List.length_take, List.length_drop] at hlen
        simp [CRLF_B] at hlen
        omega
      · rw [List.drop_take, List.drop_drop]
        have h2k : (2 : Nat) + (k - 2) = k := by omega
        have h2k2 : k - (k - 2) = 2 := by omega
        rw [h2k, h2k2]
        intro hcon
        have hiff := hf4 k (by omega) hk (by omega)
        have := hiff.mp hcon
        omega
    · omega
  unfold parse_nmea
  simp only [hscan, htk, List.take_append_drop, hd]

theorem parse_rtcm_extract {dec : List Nat → Except ε α} {B f rest : List Nat}
    {s : Nat} {p : α} (hdrop : B.drop s = f ++ rest) (hf : IsRTCMFrame f)
    (hd : dec f = .ok p) :
    parse_rtcm dec B s (f.take 2) = some (.ok (f, p)) := by
  obtain ⟨hf1, hf2, hf3, hf4⟩ := hf
  have hB := length_of_drop hdrop (by omega)
  have h1 : readBytes B (s + 2) 1 = some ((f.drop 2).take 1) :=
    readBytes_eq_some.mpr ⟨by omega, (slice_of_drop hdrop (by omega)).symm⟩
  have hh3 : ((f.drop 2).take 1).getD 0 0 = f.getD 2 0 := by
    rw [getD_of_take (by omega), getD_drop]
  have hh1 : (f.take 2).getD 1 0 = f.getD 1 0 := getD_of_take (by omega)
  have h2 : readBytes B (s + 3) ((f.getD 2 0 ||| (f.getD 1 0 <<< 8)) + 3) =
      some (f.drop 3) := by
    refine readBytes_eq_some.mpr ⟨by omega, ?_⟩
    rw [slice_of_drop hdrop (by omega),
      List.take_of_length_le (by rw [List.length_drop]; omega)]
  have hraw : f.take 2 ++ (f.drop 2).take 1 ++ f.drop 3 = f := by
    rw [List.append_assoc]
    have h3 : f.drop 3 = (f.drop 2).drop 1 := by rw [List.drop_drop]
    rw [h3, List.take_append_drop, List.take_append_drop]
  unfold parse_rtcm
  simp only [h1, hh3, hh1, h2, hraw, hd]

/-! ### Single steps of the `parse_buffer` scan loop -/

theorem aux_step_stop {dec : Decoders ε α} {buf : List Nat} {fuel s : Nat}
    (h : ¬ s < buf.length) :
    parseBufferAux dec buf (fuel + 1) s = .ok (none, buf) := by
  unfold parseBufferAux
  rw [if_neg h]

theorem aux_step_skip1 {dec : Decoders ε α} {buf : List Nat} {fuel s : Nat}
    (h : s < buf.length)
    (h2 : ¬(buf.getD s 0 = 0x24 ∨ buf.getD s 0 = 0xB5 ∨ buf.getD s 0 = 0xD3)) :
    parseBufferAux dec buf (fuel + 1) s = parseBufferAux dec buf fuel (s + 1) := by
  unfold parseBufferAux
  rw [if_pos h, if_neg h2]
  rw [parseBufferAux.eq_def]

theorem aux_step_eof {dec : Decoders ε α} {buf : List Nat} {fuel s : Nat}
    (h : s < buf.length)
    (h2 : buf.getD s 0 = 0x24 ∨ buf.getD s 0 = 0xB5 ∨ buf.getD s 0 = 0xD3)
    (h3 : readBytes buf (s + 1) 1 = none) :
    parseBufferAux dec buf (fuel + 1) s = .ok (none, buf) := by
  unfold parseBufferAux
  rw [if_pos h, if_pos h2]
  simp only [h3]

theorem aux_step_ubx {dec : Decoders ε α} {buf byte2 : List Nat} {fuel s : Nat}
    (h : s < buf.length)
    (h2 : buf.getD s 0 = 0x24 ∨ buf.getD s 0 = 0xB5 ∨ buf.getD s 0 = 0xD3)
    (h3 : readBytes buf (s + 1) 1 = some byte2)
    (h4 : [buf.getD s 0] ++ byte2 = UBX_HDR) :
    parseBufferAux dec buf (fuel + 1) s =
      finishFrame buf s (parse_ubx dec.ubx buf s ([buf.getD s 0] ++ byte2)) := by
  unfold parseBufferAux
  rw [if_pos h, if_pos h2]
  simp only [h3]
  rw [if_pos h4]

theorem aux_step_nmea {dec : Decoders ε α} {buf byte2 : List Nat} {fuel s : Nat}
    (h : s < buf.length)
    (h2 : buf.getD s 0 = 0x24 ∨ buf.getD s 0 = 0xB5 ∨ buf.getD s 0 = 0xD3)
    (h3 : readBytes buf (s + 1) 1 = some byte2)
    (h4 : ¬ [buf.getD s 0] ++ byte2 = UBX_HDR)
    (h5 : [buf.getD s 0] ++ byte2 ∈ NMEA_HDR) :
    parseBufferAux dec buf (fuel + 1) s =
      finishFrame buf s (parse_nmea dec.nmea buf s ([buf.getD s 0] ++ byte2)) := by
  unfold parseBufferAux
  rw [if_pos h, if_pos h2]
  simp only [h3]
  rw [if_neg h4, if_pos h5]

theorem aux_step_rtcm {dec : Decoders ε α} {buf byte2 : List Nat} {fuel s : Nat}
    (h : s < buf.length)
    (h2 : buf.getD s 0 = 0x24 ∨ buf.getD s 0 = 0xB5 ∨ buf.getD s 0 = 0xD3)
    (h3 : readBytes buf (s + 1) 1 = some byte2)
    (h4 : ¬ [buf.getD s 0] ++ byte2 = UBX_HDR)
    (h5 : ¬ [buf.getD s 0] ++ byte2 ∈ NMEA_HDR)
    (h6 : buf.getD s 0 = 0xD3 ∧ (byte2.getD 0 0) &&& 0xFC = 0) :
    parseBufferAux dec buf (fuel + 1) s =
      finishFrame buf s (parse_rtcm dec.rtcm buf s ([buf.getD s 0] ++ byte2)) := by
  unfold parseBufferAux
  rw [if_pos h, if_pos h2]
  simp only [h3]
  rw [if_neg h4, if_neg h5, if_pos h6]

theorem aux_step_skip2 {dec : Decoders ε α} {buf byte2 : List Nat} {fuel s : Nat}
    (h : s < buf.length)
    (h2 : buf.getD s 0 = 0x24 ∨ buf.getD s 0 = 0xB5 ∨ buf.getD s 0 = 0xD3)
    (h3 : readBytes buf (s + 1) 1 = some byte2)
    (h4 : ¬ [buf.getD s 0] ++ byte2 = UBX_HDR)
    (h5 : ¬ [buf.getD s 0] ++ byte2 ∈ NMEA_HDR)
    (h6 : ¬(buf.getD s 0 = 0xD3 ∧ (byte2.getD 0 0) &&& 0xFC = 0)) :
    parseBufferAux dec buf (fuel + 1) s = parseBufferAux dec buf fuel (s + 2) := by
  unfold parseBufferAux
  rw [if_pos h, if_pos h2]
  simp only [h3]
  rw [if_neg h4, if_neg h5, if_neg h6]
  rw [parseBufferAux.eq_def]

/-! ### Inversion of `finishFrame` and consolidated extractor facts -/

theorem finishFrame_inv_some {buf r raw : List Nat} {s : Nat} {p : α}
    {po : Option (Except ε (List Nat × α))}
    (h : finishFrame buf s po = .ok (some (raw, p), r)) :
    po = some (.ok (raw, p)) ∧ r = buf.drop (s + raw.length) := by
  match po with
  | none => simp [finishFrame] at h
  | some (.error e) => simp [finishFrame] at h
  | some (.ok (raw2, p2)) =>
    simp only [finishFrame, Except.ok.injEq, Prod.mk.injEq,
      Option.some.injEq] at h
    obtain ⟨⟨h1, h2⟩, h3⟩ := h
    subst h1; subst h2
    exact ⟨rfl, h3.symm⟩

theorem finishFrame_inv_error {buf : List Nat} {s : Nat} {e : ε}
    {po : Option (Except ε (List Nat × α))}
    (h : finishFrame buf s po = .error e) : po = some (.error e) := by
  match po with
  | none => simp [finishFrame] at h
  | some (.error e2) =>
    simp only [finishFrame, Except.error.injEq] at h
    rw [h]
  | some (.ok (raw2, p2)) => simp [finishFrame] at h

theorem parse_ubx_full {dec : List Nat → Except ε α} {buf b2 raw : List Nat}
    {s : Nat} {p : α}
    (hrb : readBytes buf (s + 1) 1 = some b2)
    (h : parse_ubx dec buf s ([buf.getD s 0] ++ b2) = some (.ok (raw, p))) :
    2 ≤ raw.length ∧ s + raw.length ≤ buf.length ∧
    raw = (buf.drop s).take raw.length ∧ dec raw = .ok p := by
  obtain ⟨hb2, hb2v⟩ := readBytes_eq_some.mp hrb
  obtain ⟨hbound, hraw, hdec⟩ := parse_ubx_spec h
  have hhdr : [buf.getD s 0] ++ b2 = (buf.drop s).take 2 := by
    rw [take_two_of_le (by omega), hb2v]
  have hraw2 : raw = (buf.drop s).take (2 + (ubxLen buf s + 6)) := by
    rw [List.take_add, ← hhdr, hraw]
    congr 1
    rw [List.drop_drop]
  have hrl : raw.length = 2 + (ubxLen buf s + 6) := by
    rw [hraw2, List.length_take, List.length_drop]
    omega
  refine ⟨by omega, by omega, ?_, hdec⟩
  rw [hrl, hraw2]

theorem parse_rtcm_full {dec : List Nat → Except ε α} {buf b2 raw : List Nat}
    {s : Nat} {p : α}
    (hrb : readBytes buf (s + 1) 1 = some b2)
    (h : parse_rtcm dec buf s ([buf.getD s 0] ++ b2) = some (.ok (raw, p))) :
    2 ≤ raw.length ∧ s + raw.length ≤ buf.length ∧
    raw = (buf.drop s).take raw.length ∧ dec raw = .ok p := by
  obtain ⟨hb2, hb2v⟩ := readBytes_eq_some.mp hrb
  obtain ⟨hbound, hraw, hdec⟩ := parse_rtcm_spec h
  have hhdr : [buf.getD s 0] ++ b2 = (buf.drop s).take 2 := by
    rw [take_two_of_le (by omega), hb2v]
  have hraw2 : raw = (buf.drop s).take
      (2 + ((buf.getD (s + 2) 0 |||
        (([buf.getD s 0] ++ b2).getD 1 0 <<< 8)) + 4)) := by
    rw [List.take_add, ← hhdr, hraw]
    congr 1
    rw [List.drop_drop]
  have hrl : raw.length = 2 + ((buf.getD (s + 2) 0 |||
      (([buf.getD s 0] ++ b2).getD 1 0 <<< 8)) + 4) := by
    rw [hraw2, List.length_take, List.length_drop]
    omega
  refine ⟨by omega, by omega, ?_, hdec⟩
  rw [hrl, hraw2]

theorem parse_nmea_full {dec : List Nat → Except ε α} {buf b2 raw : List Nat}
    {s : Nat} {p : α}
    (hrb : readBytes buf (s + 1) 1 = some b2)
    (h : parse_nmea dec buf s ([buf.getD s 0] ++ b2) = some (.ok (raw, p))) :
    2 ≤ raw.length ∧ s + raw.length ≤ buf.length ∧
    raw = (buf.drop s).take raw.length ∧ dec raw = .ok p := by
  obtain ⟨hb2, hb2v⟩ := readBytes_eq_some.mp hrb
  obtain ⟨j, hj1, hj2, hraw, hj4, hj5, hdec⟩ := parse_nmea_spec h
  have hhdr : [buf.getD s 0] ++ b2 = (buf.drop s).take 2 := by
    rw [take_two_of_le (by omega), hb2v]
  have hraw2 : raw = (buf.drop s).take (2 + j) := by
    rw [List.take_add, ← hhdr, hraw]
    congr 1
    rw [List.drop_drop]
  have hrl : raw.length = 2 + j := by
    rw [hraw2, List.length_take, List.length_drop]
    omega
  refine ⟨by omega, by omega, ?_, hdec⟩
  rw [hrl, hraw2]

/-! ### Global facts about the scan loop -/

/-- When `parse_buffer` emits nothing, the returned `buf_remain` is the
original buffer, untouched. -/
theorem aux_none {dec : Decoders ε α} {buf : List Nat} :
    ∀ {fuel s b}, parseBufferAux dec buf fuel s = .ok (none, b) → b = buf := by
  intro fuel
  induction fuel with
  | zero =>
    intro s b h
    exact (congrArg Prod.snd (Except.ok.inj h)).symm
  | succ fuel ih =>
    intro s b h
    by_cases hlt : s < buf.length
    · by_cases hsync : buf.getD s 0 = 0x24 ∨ buf.getD s 0 = 0xB5 ∨
          buf.getD s 0 = 0xD3
      · cases hrb : readBytes buf (s + 1) 1 with
        | none =>
          rw [aux_step_eof hlt hsync hrb] at h
          exact (congrArg Prod.snd (Except.ok.inj h)).symm
        | some b2 =>
          by_cases hubx : [buf.getD s 0] ++ b2 = UBX_HDR
          · rw [aux_step_ubx hlt hsync hrb hubx] at h
            match hp : parse_ubx dec.ubx buf s ([buf.getD s 0] ++ b2) with
            | none => rw [hp] at h; exact (congrArg Prod.snd (Except.ok.inj h)).symm
            | some (.error e) => rw [hp] at h; simp [finishFrame] at h
            | some (.ok (raw, p)) => rw [hp] at h; simp [finishFrame] at h
          · by_cases hnmea : [buf.getD s 0] ++ b2 ∈ NMEA_HDR
            · rw [aux_step_nmea hlt hsync hrb hubx hnmea] at h
              match hp : parse_nmea dec.nmea buf s ([buf.getD s 0] ++ b2) with
              | none => rw [hp] at h; exact (congrArg Prod.snd (Except.ok.inj h)).symm
              | some (.error e) => rw [hp] at h; simp [finishFrame] at h
              | some (.ok (raw, p)) => rw [hp] at h; simp [finishFrame] at h
            · by_cases hrtcm : buf.getD s 0 = 0xD3 ∧ (b2.getD 0 0) &&& 0xFC = 0
              · rw [aux_step_rtcm hlt hsync hrb hubx hnmea hrtcm] at h
                match hp : parse_rtcm dec.rtcm buf s ([buf.getD s 0] ++ b2) with
                | none => rw [hp] at h; exact (congrArg Prod.snd (Except.ok.inj h)).symm
                | some (.error e) => rw [hp] at h; simp [finishFrame] at h
                | some (.ok (raw, p)) => rw [hp] at h; simp [finishFrame] at h
              · rw [aux_step_skip2 hlt hsync hrb hubx hnmea hrtcm] at h
                exact ih h
      · rw [aux_step_skip1 hlt hsync] at h
        exact ih h
    · rw [aux_step_stop hlt] at h
      exact (congrArg Prod.snd (Except.ok.inj h)).symm

/-- Extra fuel does not change an emitting run of the scan loop. -/
theorem aux_mono_some {dec : Decoders ε α} {buf : List Nat} :
    ∀ {fuel s : Nat} {x : List Nat × α} {r : List Nat},
      parseBufferAux dec buf fuel s = .ok (some x, r) →
      parseBufferAux dec buf (fuel + 1) s = .ok (some x, r) := by
  intro fuel
  induction fuel with
  | zero => intro s x r h; simp [parseBufferAux] at h
  | succ fuel ih =>
    intro s x r h
    by_cases hlt : s < buf.length
    · by_cases hsync : buf.getD s 0 = 0x24 ∨ buf.getD s 0 = 0xB5 ∨
          buf.getD s 0 = 0xD3
      · cases hrb : readBytes buf (s + 1) 1 with
        | none =>
          rw [aux_step_eof hlt hsync hrb] at h
          simp at h
        | some b2 =>
          by_cases hubx : [buf.getD s 0] ++ b2 = UBX_HDR
          · rw [aux_step_ubx hlt hsync hrb hubx] at h
            rw [aux_step_ubx hlt hsync hrb hubx]
            exact h
          · by_cases hnmea : [buf.getD s 0] ++ b2 ∈ NMEA_HDR
            · rw [aux_step_nmea hlt hsync hrb hubx hnmea] at h
              rw [aux_step_nmea hlt hsync hrb hubx hnmea]
              exact h
            · by_cases hrtcm : buf.getD s 0 = 0xD3 ∧ (b2.getD 0 0) &&& 0xFC = 0
              · rw [aux_step_rtcm hlt hsync hrb hubx hnmea hrtcm] at h
                rw [aux_step_rtcm hlt hsync hrb hubx hnmea hrtcm]
                exact h
              · rw [aux_step_skip2 hlt hsync hrb hubx hnmea hrtcm] at h
                rw [aux_step_skip2 hlt hsync hrb hubx hnmea hrtcm]
                exact ih h
      · rw [aux_step_skip1 hlt hsync] at h
        rw [aux_step_skip1 hlt hsync]
        exact ih h
    · rw [aux_step_stop hlt] at h
      simp at h

/-- Extra fuel does not change a run of the scan loop that ends in a
propagating decoder exception. -/
theorem aux_mono_error {dec : Decoders ε α} {buf : List Nat} :
    ∀ {fuel s : Nat} {e : ε},
      parseBufferAux dec buf fuel s = .error e →
      parseBufferAux dec buf (fuel + 1) s = .error e := by
  intro fuel
  induction fuel with
  | zero => intro s e h; simp [parseBufferAux] at h
  | succ fuel ih =>
    intro s e h
    by_cases hlt : s < buf.length
    · by_cases hsync : buf.getD s 0 = 0x24 ∨ buf.getD s 0 = 0xB5 ∨
          buf.getD s 0 = 0xD3
      · cases hrb : readBytes buf (s + 1) 1 with
        | none =>
          rw [aux_step_eof hlt hsync hrb] at h
          simp at h
        | some b2 =>
          by_cases hubx : [buf.getD s 0] ++ b2 = UBX_HDR
          · rw [aux_step_ubx hlt hsync hrb hubx] at h
            rw [aux_step_ubx hlt hsync hrb hubx]
            exact h
          · by_cases hnmea : [buf.getD s 0] ++ b2 ∈ NMEA_HDR
            · rw [aux_step_nmea hlt hsync hrb hubx hnmea] at h
              rw [aux_step_nmea hlt hsync hrb hubx hnmea]
              exact h
            · by_cases hrtcm : buf.getD s 0 = 0xD3 ∧ (b2.getD 0 0) &&& 0xFC = 0
              · rw [aux_step_rtcm hlt hsync hrb hubx hnmea hrtcm] at h
                rw [aux_step_rtcm hlt hsync hrb hubx hnmea hrtcm]
                exact h
              · rw [aux_step_skip2 hlt hsync hrb hubx hnmea hrtcm] at h
                rw [aux_step_skip2 hlt hsync hrb hubx hnmea hrtcm]
                exact ih h
      · rw [aux_step_skip1 hlt hsync] at h
        rw [aux_step_skip1 hlt hsync]
        exact ih h
    · rw [aux_step_stop hlt] at h
      simp at h

theorem aux_mono_some_le {dec : Decoders ε α} {buf : List Nat}
    {fuel fuel' s : Nat} {x : List Nat × α} {r : List Nat}
    (hle : fuel ≤ fuel')
    (h : parseBufferAux dec buf fuel s = .ok (some x, r)) :
    parseBufferAux dec buf fuel' s = .ok (some x, r) := by
  induction hle with
  | refl => exact h
  | step _ ih => exact aux_mono_some ih

theorem aux_mono_error_le {dec : Decoders ε α} {buf : List Nat}
    {fuel fuel' s : Nat} {e : ε}
    (hle : fuel ≤ fuel')
    (h : parseBufferAux dec buf fuel s = .error e) :
    parseBufferAux dec buf fuel' s = .error e := by
  induction hle with
  | refl => exact h
  | step _ ih => exact aux_mono_error ih

/-- Master characterization of an emitting scan: the enqueued `raw_data`
is a contiguous slice of the buffer at some scan position `q`, at least 2
bytes long, starting with a recognized sync header, and `buf_remain` is
exactly the suffix after it. -/
theorem aux_some_spec {dec : Decoders ε α} {buf : List Nat} :
    ∀ {fuel s : Nat} {raw : List Nat} {p : α} {r : List Nat},
      parseBufferAux dec buf fuel s = .ok (some (raw, p), r) →
      ∃ q, s ≤ q ∧ 2 ≤ raw.length ∧ q + raw.length ≤ buf.length ∧
        raw = (buf.drop q).take raw.length ∧ r = buf.drop (q + raw.length) ∧
        ValidHdr (raw.take 2) := by
  intro fuel
  induction fuel with
  | zero => intro s raw p r h; simp [parseBufferAux] at h
  | succ fuel ih =>
    intro s raw p r h
    by_cases hlt : s < buf.length
    · by_cases hsync : buf.getD s 0 = 0x24 ∨ buf.getD s 0 = 0xB5 ∨
          buf.getD s 0 = 0xD3
      · cases hrb : readBytes buf (s + 1) 1 with
        | none =>
          rw [aux_step_eof hlt hsync hrb] at h
          simp at h
        | some b2 =>
          obtain ⟨hb2, hb2v⟩ := readBytes_eq_some.mp hrb
          by_cases hubx : [buf.getD s 0] ++ b2 = UBX_HDR
          · rw [aux_step_ubx hlt hsync hrb hubx] at h
            obtain ⟨hpo, hr⟩ := finishFrame_inv_some h
            obtain ⟨hl2, hbound, hslice, _⟩ := parse_ubx_full hrb hpo
            have htake2 : raw.take 2 = (buf.drop s).take 2 := by
              conv_lhs => rw [hslice]
              rw [List.take_take]
              congr 1
              omega
            refine ⟨s, le_refl s, hl2, hbound, hslice, hr, Or.inl ?_⟩
            rw [htake2, take_two_of_le (by omega), ← hb2v]
            exact hubx
          · by_cases hnmea : [buf.getD s 0] ++ b2 ∈ NMEA_HDR
            · rw [aux_step_nmea hlt hsync hrb hubx hnmea] at h
              obtain ⟨hpo, hr⟩ := finishFrame_inv_some h
              obtain ⟨hl2, hbound, hslice, _⟩ := parse_nmea_full hrb hpo
              have htake2 : raw.take 2 = (buf.drop s).take 2 := by
                conv_lhs => rw [hslice]
                rw [List.take_take]
                congr 1
                omega
              refine ⟨s, le_refl s, hl2, hbound, hslice, hr,
                Or.inr (Or.inl ?_)⟩
              rw [htake2, take_two_of_le (by omega), ← hb2v]
              exact hnmea
            · by_cases hrtcm : buf.getD s 0 = 0xD3 ∧
                  (b2.getD 0 0) &&& 0xFC = 0
              · rw [aux_step_rtcm hlt hsync hrb hubx hnmea hrtcm] at h
                obtain ⟨hpo, hr⟩ := finishFrame_inv_some h
                obtain ⟨hl2, hbound, hslice, _⟩ := parse_rtcm_full hrb hpo
                have htake2 : raw.take 2 = [buf.getD s 0] ++ b2 := by
                  conv_lhs => rw [hslice]
                  rw [List.take_take]
                  have hmin : min 2 raw.length = 2 := by omega
                  rw [hmin, take_two_of_le (by omega), ← hb2v]
                refine ⟨s, le_refl s, hl2, hbound, hslice, hr,
                  Or.inr (Or.inr ⟨?_, ?_⟩)⟩
                · rw [htake2]
                  rw [List.cons_append, List.nil_append, List.getD_cons_zero]
                  exact hrtcm.1
                · rw [htake2]
                  rw [List.cons_append, List.nil_append, List.getD_cons_succ]
                  exact hrtcm.2
              · rw [aux_step_skip2 hlt hsync hrb hubx hnmea hrtcm] at h
                obtain ⟨q, hq1, hrest⟩ := ih h
                exact ⟨q, by omega, hrest⟩
      · rw [aux_step_skip1 hlt hsync] at h
        obtain ⟨q, hq1, hrest⟩ := ih h
        exact ⟨q, by omega, hrest⟩
    · rw [aux_step_stop hlt] at h
      simp at h

/-- Appending bytes after an emitting scan does not change the emitted
frame: the scan reads only the prefix it consumed. -/
theorem aux_append_some {dec : Decoders ε α} {buf extra : List Nat} :
    ∀ {fuel s : Nat} {x : List Nat × α} {r : List Nat},
      parseBufferAux dec buf fuel s = .ok (some x, r) →
      parseBufferAux dec (buf ++ extra) fuel s = .ok (some x, r ++ extra) := by
  intro fuel
  induction fuel with
  | zero => intro s x r h; simp [parseBufferAux] at h
  | succ fuel ih =>
    intro s x r h
    by_cases hlt : s < buf.length
    case neg => rw [aux_step_stop hlt] at h; simp at h
    case pos =>
    have hlt2 : s < (buf ++ extra).length := by rw [List.length_append]; omega
    have hgd : (buf ++ extra).getD s 0 = buf.getD s 0 := getD_append extra hlt
    by_cases hsync : buf.getD s 0 = 0x24 ∨ buf.getD s 0 = 0xB5 ∨
        buf.getD s 0 = 0xD3
    case neg =>
      rw [aux_step_skip1 hlt hsync] at h
      rw [aux_step_skip1 hlt2 (by rw [hgd]; exact hsync)]
      exact ih h
    case pos =>
    cases hrb : readBytes buf (s + 1) 1 with
    | none => rw [aux_step_eof hlt hsync hrb] at h; simp at h
    | some b2 =>
      obtain ⟨hb2, hb2v⟩ := readBytes_eq_some.mp hrb
      have hrb2 : readBytes (buf ++ extra) (s + 1) 1 = some b2 := by
        rw [readBytes_append extra (by omega)]; exact hrb
      have hsync2 : (buf ++ extra).getD s 0 = 0x24 ∨
          (buf ++ extra).getD s 0 = 0xB5 ∨ (buf ++ extra).getD s 0 = 0xD3 := by
        rw [hgd]; exact hsync
      by_cases hubx : [buf.getD s 0] ++ b2 = UBX_HDR
      · rw [aux_step_ubx hlt hsync hrb hubx] at h
        obtain ⟨raw, p⟩ := x
        obtain ⟨hpo, hr⟩ := finishFrame_inv_some h
        obtain ⟨hl2, hbound, _, _⟩ := parse_ubx_full hrb hpo
        rw [aux_step_ubx hlt2 hsync2 hrb2 (by rw [hgd]; exact hubx)]
        rw [hgd, parse_ubx_append extra hpo]
        simp only [finishFrame]
        rw [hr, List.drop_append_of_le_length (by omega)]
      · by_cases hnmea : [buf.getD s 0] ++ b2 ∈ NMEA_HDR
        · rw [aux_step_nmea hlt hsync hrb hubx hnmea] at h
          obtain ⟨raw, p⟩ := x
          obtain ⟨hpo, hr⟩ := finishFrame_inv_some h
          obtain ⟨hl2, hbound, _, _⟩ := parse_nmea_full hrb hpo
          rw [aux_step_nmea hlt2 hsync2 hrb2 (by rw [hgd]; exact hubx)
            (by rw [hgd]; exact hnmea)]
          rw [hgd, parse_nmea_append extra hpo]
          simp only [finishFrame]
          rw [hr, List.drop_append_of_le_length (by omega)]
        · by_cases hrtcm : buf.getD s 0 = 0xD3 ∧ (b2.getD 0 0) &&& 0xFC = 0
          · rw [aux_step_rtcm hlt hsync hrb hubx hnmea hrtcm] at h
            obtain ⟨raw, p⟩ := x
            obtain ⟨hpo, hr⟩ := finishFrame_inv_some h
            obtain ⟨hl2, hbound, _, _⟩ := parse_rtcm_full hrb hpo
            rw [aux_step_rtcm hlt2 hsync2 hrb2 (by rw [hgd]; exact hubx)
              (by rw [hgd]; exact hnmea) (by rw [hgd]; exact hrtcm)]
            rw [hgd, parse_rtcm_append extra hpo]
            simp only [finishFrame]
            rw [hr, List.drop_append_of_le_length (by omega)]
          · rw [aux_step_skip2 hlt hsync hrb hubx hnmea hrtcm] at h
            rw [aux_step_skip2 hlt2 hsync2 hrb2 (by rw [hgd]; exact hubx)
              (by rw [hgd]; exact hnmea) (by rw [hgd]; exact hrtcm)]
            exact ih h

/-- Appending bytes after a scan that ends in a propagating decoder
exception does not change that outcome. -/
theorem aux_append_error {dec : Decoders ε α} {buf extra : List Nat} :
    ∀ {fuel s : Nat} {e : ε},
      parseBufferAux dec buf fuel s = .error e →
      parseBufferAux dec (buf ++ extra) fuel s = .error e := by
  intro fuel
  induction fuel with
  | zero => intro s e h; simp [parseBufferAux] at h
  | succ fuel ih =>
    intro s e h
    by_cases hlt : s < buf.length
    case neg => rw [aux_step_stop hlt] at h; simp at h
    case pos =>
    have hlt2 : s < (buf ++ extra).length := by rw [List.length_append]; omega
    have hgd : (buf ++ extra).getD s 0 = buf.getD s 0 := getD_append extra hlt
    by_cases hsync : buf.getD s 0 = 0x24 ∨ buf.getD s 0 = 0xB5 ∨
        buf.getD s 0 = 0xD3
    case neg =>
      rw [aux_step_skip1 hlt hsync] at h
      rw [aux_step_skip1 hlt2 (by rw [hgd]; exact hsync)]
      exact ih h
    case pos =>
    cases hrb : readBytes buf (s + 1) 1 with
    | none => rw [aux_step_eof hlt hsync hrb] at h; simp at h
    | some b2 =>
      obtain ⟨hb2, hb2v⟩ := readBytes_eq_some.mp hrb
      have hrb2 : readBytes (buf ++ extra) (s + 1) 1 = some b2 := by
        rw [readBytes_append extra (by omega)]; exact hrb
      have hsync2 : (buf ++ extra).getD s 0 = 0x24 ∨
          (buf ++ extra).getD s 0 = 0xB5 ∨ (buf ++ extra).getD s 0 = 0xD3 := by
        rw [hgd]; exact hsync
      by_cases hubx : [buf.getD s 0] ++ b2 = UBX_HDR
      · rw [aux_step_ubx hlt hsync hrb hubx] at h
        have hpo := finishFrame_inv_error h
        rw [aux_step_ubx hlt2 hsync2 hrb2 (by rw [hgd]; exact hubx)]
        rw [hgd, parse_ubx_append extra hpo]
        simp [finishFrame]
      · by_cases hnmea : [buf.getD s 0] ++ b2 ∈ NMEA_HDR
        · rw [aux_step_nmea hlt hsync hrb hubx hnmea] at h
          have hpo := finishFrame_inv_error h
          rw [aux_step_nmea hlt2 hsync2 hrb2 (by rw [hgd]; exact hubx)
            (by rw [hgd]; exact hnmea)]
          rw [hgd, parse_nmea_append extra hpo]
          simp [finishFrame]
        · by_cases hrtcm : buf.getD s 0 = 0xD3 ∧ (b2.getD 0 0) &&& 0xFC = 0
          · rw [aux_step_rtcm hlt hsync hrb hubx hnmea hrtcm] at h
            have hpo := finishFrame_inv_error h
            rw [aux_step_rtcm hlt2 hsync2 hrb2 (by rw [hgd]; exact hubx)
              (by rw [hgd]; exact hnmea) (by rw [hgd]; exact hrtcm)]
            rw [hgd, parse_rtcm_append extra hpo]
            simp [finishFrame]
          · rw [aux_step_skip2 hlt hsync hrb hubx hnmea hrtcm] at h
            rw [aux_step_skip2 hlt2 hsync2 hrb2 (by rw [hgd]; exact hubx)
              (by rw [hgd]; exact hnmea) (by rw [hgd]; exact hrtcm)]
            exact ih h

theorem frameDecoder_ubx {dec : Decoders ε α} {f : List Nat}
    (hf : IsUBXFrame f) : frameDecoder dec f = dec.ubx f := by
  rw [frameDecoder, if_pos hf.1]

theorem frameDecoder_nmea {dec : Decoders ε α} {f : List Nat}
    (hf : IsNMEAFrame f) : frameDecoder dec f = dec.nmea f := by
  have h1 := hf.1
  simp only [NMEA_HDR, List.mem_cons, List.not_mem_nil, or_false] at h1
  rcases h1 with h1 | h1
  · rw [frameDecoder, if_neg (by rw [h1]; decide), if_pos hf.1]
  · rw [frameDecoder, if_neg (by rw [h1]; decide), if_pos hf.1]

theorem frameDecoder_rtcm {dec : Decoders ε α} {f : List Nat}
    (hf : IsRTCMFrame f) : frameDecoder dec f = dec.rtcm f := by
  obtain ⟨hf1, hf2, hf3, hf4⟩ := hf
  have h0 : (f.take 2).getD 0 0 = f.getD 0 0 := getD_of_take (by omega)
  have hu : ¬ f.take 2 = UBX_HDR := by
    intro hcon
    rw [hcon, hf1] at h0
    exact absurd h0 (by decide)
  have hn : ¬ f.take 2 ∈ NMEA_HDR := by
    intro hcon
    simp only [NMEA_HDR, List.mem_cons, List.not_mem_nil, or_false] at hcon
    rcases hcon with hc | hc
    · rw [hc, hf1] at h0
      exact absurd h0 (by decide)
    · rw [hc, hf1] at h0
      exact absurd h0 (by decide)
  rw [frameDecoder, if_neg hu, if_neg hn]

/-- The scan at a position where (after a run of noise bytes) a complete
valid frame begins: the noise is skipped one byte at a time, the frame is
classified, extracted whole, and the suffix after it is returned. -/
theorem aux_emits {dec : Decoders ε α} {B : List Nat} :
    ∀ {fuel : Nat} {noise : List Nat} {s : Nat} {f rest : List Nat} {p : α},
      B.drop s = noise ++ f ++ rest →
      (∀ b ∈ noise, NoiseByte b) →
      IsFrame f → frameDecoder dec f = .ok p →
      noise.length < fuel →
      parseBufferAux dec B fuel s = .ok (some (f, p), rest) := by
  intro fuel
  induction fuel with
  | zero => intro noise s f rest p _ _ _ _ hfuel; omega
  | succ fuel ih =>
    intro noise s f rest p hdrop hn hf hd hfuel
    have hflen : 4 ≤ f.length := by
      rcases hf with h | h | h
      · exact le_trans (by norm_num) h.2.1
      · exact h.2.1
      · exact le_trans (by norm_num) h.2.2.1
    cases noise with
    | cons b ns =>
      have hdropc : B.drop s = b :: (ns ++ (f ++ rest)) := by
        rw [hdrop]
        simp [List.append_assoc]
      have hgd : B.getD s 0 = b := getD_of_drop hdropc
      have hlt : s < B.length := by
        have hlen := congrArg List.length hdropc
        rw [List.length_drop, List.length_cons] at hlen
        omega
      obtain ⟨hn1, hn2, hn3⟩ := hn b (by simp)
      rw [aux_step_skip1 hlt (by rw [hgd]; push_neg; exact ⟨hn1, hn2, hn3⟩)]
      have hdrop2 : B.drop (s + 1) = ns ++ f ++ rest := by
        rw [← List.drop_drop, hdropc]
        simp [List.append_assoc]
      refine @ih ns (s + 1) f rest p hdrop2
        (fun x hx => hn x (List.mem_cons_of_mem b hx)) hf hd ?_
      simp only [List.length_cons] at hfuel
      omega
    | nil =>
      rw [List.nil_append] at hdrop
      have hlenB := length_of_drop hdrop (by omega)
      have hlt : s < B.length := by omega
      have hrb : readBytes B (s + 1) 1 = some ((B.drop (s + 1)).take 1) :=
        readBytes_eq_some.mpr ⟨by omega, rfl⟩
      have hb2 : (B.drop (s + 1)).take 1 = (f.drop 1).take 1 :=
        slice_of_drop hdrop (by omega)
      have hgd : B.getD s 0 = f.getD 0 0 := by
        have h1 := getD_drop B s 0
        rw [Nat.add_zero] at h1
        rw [← h1, hdrop]
        exact getD_append rest (by omega)
      have hhdr : [B.getD s 0] ++ (B.drop (s + 1)).take 1 = f.take 2 := by
        rw [hgd, hb2]
        have h2 := @take_two_of_le f 0 (by omega)
        rw [List.drop_zero] at h2
        exact h2.symm
      have hrem : B.drop (s + f.length) = rest := by
        rw [← List.drop_drop, hdrop, List.drop_left]
      rcases hf with hubxf | hnmeaf | hrtcmf
      · have hsync : B.getD s 0 = 0x24 ∨ B.getD s 0 = 0xB5 ∨
            B.getD s 0 = 0xD3 := by
          right; left
          rw [hgd]
          have h0 : (f.take 2).getD 0 0 = f.getD 0 0 := getD_of_take (by omega)
          rw [hubxf.1] at h0
          simpa [UBX_HDR] using h0.symm
        rw [aux_step_ubx hlt hsync hrb (by rw [hhdr]; exact hubxf.1)]
        rw [hhdr, parse_ubx_extract hdrop hubxf
          (by rw [← frameDecoder_ubx hubxf]; exact hd)]
        simp only [finishFrame]
        rw [hrem]
      · have h1 := hnmeaf.1
        simp only [NMEA_HDR, List.mem_cons, List.not_mem_nil, or_false] at h1
        have hB : B.getD s 0 = 0x24 := by
          rw [hgd]
          have h0 : (f.take 2).getD 0 0 = f.getD 0 0 := getD_of_take (by omega)
          rcases h1 with hc | hc
          · rw [hc] at h0; simpa using h0.symm
          · rw [hc] at h0; simpa using h0.symm
        have hsync : B.getD s 0 = 0x24 ∨ B.getD s 0 = 0xB5 ∨
            B.getD s 0 = 0xD3 := Or.inl hB
        have hnequbx : ¬ [B.getD s 0] ++ (B.drop (s + 1)).take 1 = UBX_HDR := by
          intro hcon
          rw [hhdr] at hcon
          rcases h1 with hc | hc
          · rw [hc] at hcon; simp [UBX_HDR] at hcon
          · rw [hc] at hcon; simp [UBX_HDR] at hcon
        rw [aux_step_nmea hlt hsync hrb hnequbx (by rw [hhdr]; exact hnmeaf.1)]
        rw [hhdr, parse_nmea_extract hdrop hnmeaf
          (by rw [← frameDecoder_nmea hnmeaf]; exact hd)]
        simp only [finishFrame]
        rw [hrem]
      · obtain ⟨hr1, hr2, hr3, hr4⟩ := hrtcmf
        have hB : B.getD s 0 = 0xD3 := by rw [hgd]; exact hr1
        have hsync : B.getD s 0 = 0x24 ∨ B.getD s 0 = 0xB5 ∨
            B.getD s 0 = 0xD3 := Or.inr (Or.inr hB)
        have hgd1 : ((B.drop (s + 1)).take 1).getD 0 0 = f.getD 1 0 := by
          rw [hb2, getD_of_take (by omega), getD_drop]
        have hnequbx : ¬ [B.getD s 0] ++ (B.drop (s + 1)).take 1 = UBX_HDR := by
          intro hcon
          rw [List.singleton_append, hB] at hcon
          simp [UBX_HDR] at hcon
        have hneqnmea : ¬ [B.getD s 0] ++ (B.drop (s + 1)).take 1 ∈ NMEA_HDR := by
          intro hcon
          rw [List.singleton_append, hB] at hcon
          simp [NMEA_HDR] at hcon
        rw [aux_step_rtcm hlt hsync hrb hnequbx hneqnmea
          ⟨hB, by rw [hgd1]; exact hr2⟩]
        rw [hhdr, parse_rtcm_extract hdrop ⟨hr1, hr2, hr3, hr4⟩
          (by rw [← frameDecoder_rtcm ⟨hr1, hr2, hr3, hr4⟩]; exact hd)]
        simp only [finishFrame]
        rw [hrem]

/-- A scan over nothing but noise bytes finds no frame and leaves the
buffer unchanged. -/
theorem aux_noise {dec : Decoders ε α} {B : List Nat} :
    ∀ {fuel s : Nat}, (∀ b ∈ B.drop s, NoiseByte b) →
      parseBufferAux dec B fuel s = .ok (none, B) := by
  intro fuel
  induction fuel with
  | zero => intro s _; rfl
  | succ fuel ih =>
    intro s hn
    by_cases hlt : s < B.length
    · have hdc : B.drop s = B[s] :: B.drop (s + 1) :=
        List.drop_eq_getElem_cons hlt
      have hgd : B.getD s 0 = B[s] := getD_of_drop hdc
      obtain ⟨h1, h2, h3⟩ := hn (B[s]) (by rw [hdc]; exact List.mem_cons_self _ _)
      rw [aux_step_skip1 hlt (by rw [hgd]; push_neg; exact ⟨h1, h2, h3⟩)]
      apply ih
      intro b hb
      apply hn
      rw [hdc]
      exact List.mem_cons_of_mem _ hb
    · exact aux_step_stop hlt

/-! ### Facts about `parse_buffer` and the drain loop of `_read_thread` -/

theorem parse_buffer_none {dec : Decoders ε α} {buf b : List Nat}
    (h : parse_buffer dec buf = .ok (none, b)) : b = buf :=
  aux_none h

theorem parse_buffer_shrink {dec : Decoders ε α} {buf r : List Nat}
    {x : List Nat × α} (h : parse_buffer dec buf = .ok (some x, r)) :
    r.length + 2 ≤ buf.length := by
  obtain ⟨raw, p⟩ := x
  obtain ⟨q, _, hl2, hb, _, hr, _⟩ := aux_some_spec h
  rw [hr, List.length_drop]
  omega

theorem parse_buffer_append {dec : Decoders ε α} {buf r : List Nat}
    {x : List Nat × α} (extra : List Nat)
    (h : parse_buffer dec buf = .ok (some x, r)) :
    parse_buffer dec (buf ++ extra) = .ok (some x, r ++ extra) := by
  rw [parse_buffer] at h ⊢
  rw [List.length_append]
  exact aux_append_some (aux_mono_some_le (by omega) h)

theorem parse_buffer_error_append {dec : Decoders ε α} {buf : List Nat}
    {e : ε} (extra : List Nat) (h : parse_buffer dec buf = .error e) :
    parse_buffer dec (buf ++ extra) = .error e := by
  rw [parse_buffer] at h ⊢
  rw [List.length_append]
  exact aux_append_error (aux_mono_error_le (by omega) h)

theorem IsFrame.four_le {f : List Nat} (hf : IsFrame f) : 4 ≤ f.length := by
  rcases hf with h | h | h
  · exact le_trans (by norm_num) h.2.1
  · exact h.2.1
  · exact le_trans (by norm_num) h.2.2.1

/-- A complete valid frame preceded by noise and followed by anything:
`parse_buffer` discards the noise, emits exactly the frame and returns
exactly the suffix after it. -/
theorem parse_buffer_emits {dec : Decoders ε α} {noise f rest : List Nat}
    {p : α} (hn : ∀ b ∈ noise, NoiseByte b) (hf : IsFrame f)
    (hd : frameDecoder dec f = .ok p) :
    parse_buffer dec (noise ++ f ++ rest) = .ok (some (f, p), rest) := by
  rw [parse_buffer]
  refine aux_emits (by rw [List.drop_zero]) hn hf hd ?_
  have h4 := hf.four_le
  rw [List.length_append, List.length_append]
  omega

theorem parse_buffer_noise {dec : Decoders ε α} {buf : List Nat}
    (hn : ∀ b ∈ buf, NoiseByte b) :
    parse_buffer dec buf = .ok (none, buf) := by
  rw [parse_buffer]
  apply aux_noise
  intro b hb
  rw [List.drop_zero] at hb
  exact hn b hb

theorem drainAux_fuel_eq {dec : Decoders ε α} :
    ∀ {n : Nat} {buf : List Nat}, buf.length ≤ n →
      ∀ {fuel : Nat}, buf.length < fuel →
        drainAux dec fuel buf = drain dec buf := by
  intro n
  induction n with
  | zero =>
    intro buf hn fuel hf
    have hbnil : buf = [] := List.length_eq_zero.mp (by omega)
    subst hbnil
    obtain ⟨fuel2, rfl⟩ : ∃ k, fuel = k + 1 := ⟨fuel - 1, by omega⟩
    rfl
  | succ n ih =>
    intro buf hn fuel hf
    obtain ⟨fuel2, rfl⟩ : ∃ k, fuel = k + 1 := ⟨fuel - 1, by omega⟩
    show drainAux dec (fuel2 + 1) buf = drainAux dec (buf.length + 1) buf
    unfold drainAux
    cases hp : parse_buffer dec buf with
    | error e => rfl
    | ok pr =>
      obtain ⟨o, b2⟩ := pr
      cases o with
      | none => rfl
      | some x =>
        have hs := parse_buffer_shrink hp
        have h1 := ih (show b2.length ≤ n by omega)
          (show b2.length < fuel2 by omega)
        have h2 := ih (show b2.length ≤ n by omega)
          (show b2.length < buf.length by omega)
        simp only [h1, h2]

theorem drain_eq_drainAux {dec : Decoders ε α} {buf : List Nat} {fuel : Nat}
    (h : buf.length < fuel) : drainAux dec fuel buf = drain dec buf :=
  drainAux_fuel_eq (le_refl buf.length) h

theorem drain_error {dec : Decoders ε α} {buf : List Nat} {e : ε}
    (h : parse_buffer dec buf = .error e) : drain dec buf = .error e := by
  rw [drain]
  unfold drainAux
  simp only [h]

theorem drain_none {dec : Decoders ε α} {buf b : List Nat}
    (h : parse_buffer dec buf = .ok (none, b)) :
    drain dec buf = .ok ([], b) := by
  rw [drain]
  unfold drainAux
  simp only [h]

theorem drain_some {dec : Decoders ε α} {buf r : List Nat} {x : List Nat × α}
    (h : parse_buffer dec buf = .ok (some x, r)) :
    drain dec buf =
      match drain dec r with
      | .error e => .error e
      | .ok (fs, b) => .ok (x :: fs, b) := by
  have hs := parse_buffer_shrink h
  rw [drain]
  unfold drainAux
  simp only [h]
  rw [drain_eq_drainAux (by omega)]

/-- The remainder a drain leaves behind contains no complete frame: one
more `parse_buffer` call on it emits nothing and leaves it unchanged. -/
theorem drainAux_last {dec : Decoders ε α} :
    ∀ {fuel : Nat} {buf r : List Nat} {fs : List (List Nat × α)},
      buf.length < fuel → drainAux dec fuel buf = .ok (fs, r) →
      parse_buffer dec r = .ok (none, r) := by
  intro fuel
  induction fuel with
  | zero => intro buf r fs h; omega
  | succ fuel ih =>
    intro buf r fs hlen h
    unfold drainAux at h
    cases hp : parse_buffer dec buf with
    | error e => rw [hp] at h; simp at h
    | ok pr =>
      obtain ⟨o, b2⟩ := pr
      cases o with
      | none =>
        simp only [hp] at h
        have hb : b2 = buf := parse_buffer_none hp
        have hr : b2 = r := congrArg Prod.snd (Except.ok.inj h)
        rw [← hr, hb]
        rw [hb] at hp
        exact hp
      | some x =>
        simp only [hp] at h
        have hs := parse_buffer_shrink hp
        cases hd : drainAux dec fuel b2 with
        | error e => rw [hd] at h; simp at h
        | ok pr2 =>
          obtain ⟨fs2, r2⟩ := pr2
          rw [hd] at h
          have hr : r2 = r := by
            have h2 := Except.ok.inj h
            exact congrArg Prod.snd h2
          rw [← hr]
          exact ih (by omega) hd

theorem drain_last {dec : Decoders ε α} {buf r : List Nat}
    {fs : List (List Nat × α)} (h : drain dec buf = .ok (fs, r)) :
    parse_buffer dec r = .ok (none, r) := by
  rw [drain] at h
  exact drainAux_last (by omega) h

/-- Sequential composition of drains: draining `b ++ extra` is draining
`b`, then draining its remainder with `extra` appended. -/
def drainSeq (dec : Decoders ε α)
    (res : Except ε (List (List Nat × α) × List Nat)) (extra : List Nat) :
    Except ε (List (List Nat × α) × List Nat) :=
  match res with
  | .error e => .error e
  | .ok (fs, r) =>
    match drain dec (r ++ extra) with
    | .error e => .error e
    | .ok (fs2, r2) => .ok (fs ++ fs2, r2)

theorem drain_append {dec : Decoders ε α} :
    ∀ {n : Nat} {b : List Nat}, b.length ≤ n → ∀ (extra : List Nat),
      drain dec (b ++ extra) = drainSeq dec (drain dec b) extra := by
  intro n
  induction n with
  | zero =>
    intro b hb extra
    have hbnil : b = [] := List.length_eq_zero.mp (by omega)
    subst hbnil
    rw [show drain dec ([] : List Nat) = .ok ([], []) from rfl]
    simp only [drainSeq, List.nil_append]
    cases hd : drain dec extra with
    | error e => rfl
    | ok pr =>
      obtain ⟨fs2, r2⟩ := pr
      simp
  | succ n ih =>
    intro b hb extra
    cases hp : parse_buffer dec b with
    | error e =>
      rw [drain_error hp, drain_error (parse_buffer_error_append extra hp)]
      simp [drainSeq]
    | ok pr =>
      obtain ⟨o, r⟩ := pr
      cases o with
      | none =>
        have hr : r = b := parse_buffer_none hp
        subst hr
        rw [drain_none hp]
        simp only [drainSeq]
        cases hd : drain dec (r ++ extra) with
        | error e => rfl
        | ok pr2 =>
          obtain ⟨fs2, r2⟩ := pr2
          simp
      | some x =>
        have hs := parse_buffer_shrink hp
        rw [drain_some hp, drain_some (parse_buffer_append extra hp)]
        have hih := ih (show r.length ≤ n by omega) extra
        cases hdr : drain dec r with
        | error e =>
          rw [hdr] at hih
          simp only [drainSeq] at hih
          rw [hih]
          rfl
        | ok pr2 =>
          obtain ⟨fs, b2⟩ := pr2
          rw [hdr] at hih
          rw [hih]
          simp only [drainSeq]
          cases hd2 : drain dec (b2 ++ extra) with
          | error e => rfl
          | ok pr3 =>
            obtain ⟨fs2, r2⟩ := pr3
            simp

theorem feedChunks_join {dec : Decoders ε α} :
    ∀ (chunks : List (List Nat)) {buf : List Nat},
      parse_buffer dec buf = .ok (none, buf) →
      feedChunks dec chunks buf = drain dec (buf ++ chunks.flatten) := by
  intro chunks
  induction chunks with
  | nil =>
    intro buf h
    rw [List.flatten_nil, List.append_nil, drain_none h]
    rfl
  | cons c cs ih =>
    intro buf h
    have hKey : drain dec ((buf ++ c) ++ cs.flatten) =
        drainSeq dec (drain dec (buf ++ c)) cs.flatten :=
      drain_append (le_refl (buf ++ c).length) cs.flatten
    rw [List.flatten_cons, ← List.append_assoc, hKey]
    unfold feedChunks
    cases hd : drain dec (buf ++ c) with
    | error e => simp [drainSeq]
    | ok pr =>
      obtain ⟨fs, buf2⟩ := pr
      have hlast := drain_last hd
      simp only [ih hlast]
      simp only [drainSeq]

/-- Draining a stream of valid frames with noise gaps before each frame
and a trailing noise run emits exactly the frames, in order, and leaves
the trailing noise in the buffer. -/
theorem drain_withNoise {dec : Decoders ε α} (pf : List Nat → α) :
    ∀ (frames noises : List (List Nat)) (trail : List Nat),
      noises.length = frames.length →
      (∀ f ∈ frames, IsFrame f) →
      (∀ f ∈ frames, frameDecoder dec f = .ok (pf f)) →
      (∀ ns ∈ noises, ∀ b ∈ ns, NoiseByte b) →
      (∀ b ∈ trail, NoiseByte b) →
      drain dec (withNoise noises frames ++ trail) =
        .ok (frames.map (fun f => (f, pf f)), trail) := by
  intro frames
  induction frames with
  | nil =>
    intro noises trail hlen hf hd hn htr
    have hnil : noises = [] := List.length_eq_zero.mp (by simpa using hlen)
    subst hnil
    rw [show withNoise [] [] = [] from rfl, List.nil_append,
      drain_none (parse_buffer_noise htr)]
    simp
  | cons f fs ih =>
    intro noises trail hlen hf hd hn htr
    cases noises with
    | nil => simp at hlen
    | cons n ns =>
      have hstream : withNoise (n :: ns) (f :: fs) ++ trail =
          n ++ f ++ (withNoise ns fs ++ trail) := by
        show (n ++ f ++ withNoise ns fs) ++ trail = _
        rw [List.append_assoc (n ++ f)]
      rw [hstream, drain_some (parse_buffer_emits (hn n (by simp))
        (hf f (by simp)) (hd f (by simp)))]
      simp only [ih ns trail (by simpa using hlen)
        (fun x hx => hf x (List.mem_cons_of_mem f hx))
        (fun x hx => hd x (List.mem_cons_of_mem f hx))
        (fun x hx => hn x (List.mem_cons_of_mem n hx)) htr]
      simp

/-- The frames a full drain emits are, in order, disjoint contiguous
slices of the buffer, each preceded by a skipped gap, with the returned
remainder the suffix after the last one. -/
theorem drain_slices {dec : Decoders ε α} :
    ∀ {n : Nat} {buf : List Nat}, buf.length ≤ n →
      ∀ {es : List (List Nat × α)} {rem : List Nat},
        drain dec buf = .ok (es, rem) →
        SeqSlices buf (es.map Prod.fst) rem := by
  intro n
  induction n with
  | zero =>
    intro buf hb es rem h
    have hnil : buf = [] := List.length_eq_zero.mp (by omega)
    subst hnil
    rw [show drain dec ([] : List Nat) = .ok ([], []) from rfl] at h
    have h2 := Except.ok.inj h
    have hes : es = [] := (congrArg Prod.fst h2).symm
    have hrem : rem = [] := (congrArg Prod.snd h2).symm
    subst hes; subst hrem
    exact SeqSlices.nil []
  | succ n ih =>
    intro buf hb es rem h
    cases hp : parse_buffer dec buf with
    | error e => rw [drain_error hp] at h; simp at h
    | ok pr =>
      obtain ⟨o, r⟩ := pr
      cases o with
      | none =>
        have hr : r = buf := parse_buffer_none hp
        rw [drain_none hp] at h
        have h2 := Except.ok.inj h
        have hes : es = [] := (congrArg Prod.fst h2).symm
        have hrem : rem = r := (congrArg Prod.snd h2).symm
        rw [hes, hrem, hr]
        exact SeqSlices.nil buf
      | some x =>
        obtain ⟨raw, p⟩ := x
        have hs := parse_buffer_shrink hp
        rw [drain_some hp] at h
        cases hd : drain dec r with
        | error e => rw [hd] at h; simp at h
        | ok pr2 =>
          obtain ⟨fs, b⟩ := pr2
          rw [hd] at h
          have h2 := Except.ok.inj h
          have hes : es = (raw, p) :: fs := (congrArg Prod.fst h2).symm
          have hrem : rem = b := (congrArg Prod.snd h2).symm
          subst hes; subst hrem
          obtain ⟨q, hq1, hq2, hq3, hq4, hq5, _⟩ := aux_some_spec hp
          have hbuf : buf = buf.take q ++ raw ++ r := by
            rw [List.append_assoc]
            conv_lhs => rw [← List.take_append_drop q buf]
            congr 1
            rw [hq4, hq5, ← List.drop_drop]
            exact (List.take_append_drop raw.length (buf.drop q)).symm
          rw [List.map_cons, hbuf]
          exact SeqSlices.cons (buf.take q) raw (ih (by omega) hd)

/-- A valid frame with its last byte missing: the scan classifies the
frame at the head, the extractor hits `EOFError`, nothing is emitted and
the buffer is returned unchanged. -/
theorem parse_buffer_dropLast {dec : Decoders ε α} {f : List Nat}
    (hf : IsFrame f) :
    parse_buffer dec f.dropLast = .ok (none, f.dropLast) := by
  have h4 := hf.four_le
  have hB : f.dropLast = f.take (f.length - 1) := List.dropLast_eq_take f
  have hBlen : f.dropLast.length = f.length - 1 := by
    rw [hB, List.length_take]
    omega
  have hlt : 0 < f.dropLast.length := by omega
  have hgd0 : f.dropLast.getD 0 0 = f.getD 0 0 := by
    rw [hB]; exact getD_of_take (by omega)
  have hgd1 : f.dropLast.getD 1 0 = f.getD 1 0 := by
    rw [hB]; exact getD_of_take (by omega)
  have hrb : readBytes f.dropLast 1 1 = some ((f.dropLast.drop 1).take 1) :=
    readBytes_eq_some.mpr ⟨by omega, rfl⟩
  have hhdr : [f.dropLast.getD 0 0] ++ (f.dropLast.drop 1).take 1 =
      f.take 2 := by
    have h2 := @take_two_of_le f.dropLast 0 (by omega)
    rw [List.drop_zero] at h2
    rw [← h2, hB, List.take_take]
    congr 1
    omega
  have hb2 : ((f.dropLast.drop 1).take 1).getD 0 0 = f.getD 1 0 := by
    rw [getD_of_take (by omega), getD_drop]
    exact hgd1
  rw [parse_buffer]
  obtain ⟨k, hk⟩ : ∃ k, f.dropLast.length = k + 1 :=
    ⟨f.dropLast.length - 1, by omega⟩
  rw [hk]
  rcases hf with hu | hnm | hrt
  · obtain ⟨hu1, hu2, hu3⟩ := hu
    have hf0 : f.getD 0 0 = 0xB5 := by
      have h0 : (f.take 2).getD 0 0 = f.getD 0 0 := getD_of_take (by omega)
      rw [hu1] at h0
      simpa [UBX_HDR] using h0.symm
    rw [aux_step_ubx (by omega) (by rw [hgd0, hf0]; decide) hrb
      (by rw [hhdr]; exact hu1)]
    have hval : (f.dropLast.drop 2).take 4 = (f.drop 2).take 4 := by
      rw [hB, List.drop_take, List.take_take]
      congr 1
      omega
    have hr4 : readBytes f.dropLast 2 4 = some ((f.drop 2).take 4) :=
      readBytes_eq_some.mpr ⟨by omega, hval.symm⟩
    have hlenb : intFromBytesLE ((((f.drop 2).take 4).drop 2).take 2) =
        intFromBytesLE ((f.drop 4).take 2) := by
      rw [List.drop_take, List.drop_drop]
      norm_num [List.take_take]
    have hr2 : readBytes f.dropLast 6
        (intFromBytesLE ((f.drop 4).take 2) + 2) = none := by
      unfold readBytes
      rw [if_pos (by omega)]
    have hpu : parse_ubx dec.ubx f.dropLast 0 (f.take 2) = none := by
      unfold parse_ubx
      simp only [hr4, hlenb, hr2]
    rw [hhdr, hpu]
    rfl
  · obtain ⟨hn1, hn2, hn3, hn4⟩ := hnm
    have h1 := hn1
    simp only [NMEA_HDR, List.mem_cons, List.not_mem_nil, or_false] at h1
    have hf0 : f.getD 0 0 = 0x24 := by
      have h0 : (f.take 2).getD 0 0 = f.getD 0 0 := getD_of_take (by omega)
      rcases h1 with hc | hc
      · rw [hc] at h0; simpa using h0.symm
      · rw [hc] at h0; simpa using h0.symm
    have hnequbx : ¬ [f.dropLast.getD 0 0] ++ (f.dropLast.drop 1).take 1 =
        UBX_HDR := by
      rw [hhdr]
      rcases h1 with hc | hc
      · rw [hc]; decide
      · rw [hc]; decide
    rw [aux_step_nmea (by omega) (by rw [hgd0, hf0]; decide) hrb hnequbx
      (by rw [hhdr]; exact hn1)]
    have hfail : ∀ j, 0 + 2 + j ≤ f.dropLast.length →
        nmeaWindow f.dropLast 0 j ≠ CRLF_B := by
      intro j hj
      rw [nmeaWindow]
      have hwin : (f.dropLast.drop 2).take j = (f.drop 2).take j := by
        rw [hB, List.drop_take, List.take_take]
        congr 1
        omega
      rw [hwin]
      rcases Nat.lt_or_ge j 2 with hj2 | hj2
      · intro hcon
        have hlen2 := congrArg List.length hcon
        rw [List.length_drop, List.length_take, List.length_drop] at hlen2
        simp [CRLF_B] at hlen2
        omega
      · rw [List.drop_take, List.drop_drop]
        have e1 : (2 : Nat) + (j - 2) = j := by omega
        have e2 : j - (j - 2) = 2 := by omega
        rw [e1, e2]
        intro hcon
        have hiff := hn4 j (by omega) hj2 (by omega)
        have := hiff.mp hcon
        omega
    have hpn : parse_nmea dec.nmea f.dropLast 0 (f.take 2) = none := by
      unfold parse_nmea
      rw [nmeaScan_none hfail _ 1]
    rw [hhdr, hpn]
    rfl
  · obtain ⟨hr1, hr2, hr3, hr4⟩ := hrt
    have hB0 : f.dropLast.getD 0 0 = 0xD3 := by rw [hgd0]; exact hr1
    have hnequbx : ¬ [f.dropLast.getD 0 0] ++ (f.dropLast.drop 1).take 1 =
        UBX_HDR := by
      intro hcon
      rw [List.singleton_append, hB0] at hcon
      simp [UBX_HDR] at hcon
    have hneqnmea : ¬ [f.dropLast.getD 0 0] ++ (f.dropLast.drop 1).take 1 ∈
        NMEA_HDR := by
      intro hcon
      rw [List.singleton_append, hB0] at hcon
      simp [NMEA_HDR] at hcon
    rw [aux_step_rtcm (by omega) (by rw [hB0]; decide) hrb hnequbx hneqnmea
      ⟨hB0, by rw [hb2]; exact hr2⟩]
    have hpr : parse_rtcm dec.rtcm f.dropLast 0 (f.take 2) = none := by
      unfold parse_rtcm
      have hr1b : readBytes f.dropLast 2 1 =
          some ((f.dropLast.drop 2).take 1) :=
        readBytes_eq_some.mpr ⟨by omega, rfl⟩
      have hh3 : ((f.dropLast.drop 2).take 1).getD 0 0 = f.getD 2 0 := by
        rw [getD_of_take (by omega), getD_drop, hB]
        exact getD_of_take (by omega)
      have hhd1 : (f.take 2).getD 1 0 = f.getD 1 0 := getD_of_take (by omega)
      have hrd : readBytes f.dropLast 3
          ((f.getD 2 0 ||| (f.getD 1 0 <<< 8)) + 3) = none := by
        unfold readBytes
        rw [if_pos (by omega)]
      simp only [hr1b, hh3, hhd1, hrd]
    rw [hhdr, hpr]
    rfl

end FramerLemmas

theorem withNoise_nil_left : ∀ frames : List (List Nat),
    withNoise (List.replicate frames.length []) frames = frames.flatten := by
  intro frames
  induction frames with
  | nil => rfl
  | cons f fs ih =>
    show ([] ++ f ++ withNoise (List.replicate fs.length []) fs) = _
    rw [List.nil_append, ih, List.flatten_cons]

/-! ## The claims -/

section Claims

/-- C1: the claim states that when the protocol decoder rejects a sliced
payload, `parse_buffer` places exactly one decode-error paired with the
raw bytes on the queue and continues, the failure never escaping
`parse_buffer`.  The code disagrees: `parse_buffer` catches only
`EOFError`, so the parse exception raised by the decoder propagates out
of `parse_buffer` (here: the run returns `.error`), nothing is enqueued,
and the inner drain loop of `_read_thread` is aborted by the exception.
This theorem evaluates the model at the failing input: a complete,
correctly framed UBX frame whose payload the decoder rejects. -/
theorem c1_decode_error_escapes :
    parse_buffer decFail c2ubx = .error () ∧
    drain decFail c2ubx = .error () :=
  ⟨rfl, rfl⟩

/-- C2 (counterexample): the claim says the binary frame of the concrete
scenario consumes 9 bytes.  Feeding the scenario stream, the first
emitted raw frame is the full 10-byte UBX frame — its length is 10, not
9 (the frame is 2 sync + 4 sub-header + 2 payload + 2 checksum bytes). -/
theorem c2_consumes_ten_not_nine :
    drain decId c2stream = .ok ([(c2ubx, c2ubx), (c2nmea, c2nmea)], []) ∧
    c2ubx.length = 10 ∧ ¬ c2ubx.length = 9 :=
  ⟨rfl, rfl, by decide⟩

/-- C2 (amended): feeding the concrete scenario stream whole, or split
after byte 3, emits exactly two frames in order: the binary frame
(consuming 10 bytes), then the text frame consuming everything up to and
including the CRLF. -/
theorem c2_concrete_scenario :
    drain decId c2stream = .ok ([(c2ubx, c2ubx), (c2nmea, c2nmea)], []) ∧
    feedChunks decId [c2stream.take 3, c2stream.drop 3] [] =
      .ok ([(c2ubx, c2ubx), (c2nmea, c2nmea)], []) ∧
    c2ubx.length = 10 ∧
    c2nmea.drop (c2nmea.length - 2) = CRLF_B :=
  ⟨rfl, rfl, rfl, rfl⟩

/-- C3: for every sequence of valid frames with arbitrary non-sync noise
inserted before each frame and after the last, draining emits exactly
the frames, in order, with their decoder results — the same emissions as
the noise-free sequence (second conjunct), so no noise byte ever appears
in any emitted `raw_data`. -/
theorem c3_noise_tolerance {ε α : Type} (dec : Decoders ε α)
    (pf : List Nat → α) (frames noises : List (List Nat)) (trail : List Nat)
    (hlen : noises.length = frames.length)
    (hf : ∀ f ∈ frames, IsFrame f)
    (hd : ∀ f ∈ frames, frameDecoder dec f = .ok (pf f))
    (hn : ∀ ns ∈ noises, ∀ b ∈ ns, NoiseByte b)
    (htr : ∀ b ∈ trail, NoiseByte b) :
    drain dec (withNoise noises frames ++ trail) =
      .ok (frames.map (fun f => (f, pf f)), trail) ∧
    drain dec frames.flatten =
      .ok (frames.map (fun f => (f, pf f)), []) := by
  refine ⟨drain_withNoise pf frames noises trail hlen hf hd hn htr, ?_⟩
  have h2 := drain_withNoise pf frames (List.replicate frames.length []) []
    (by simp) hf hd ?_ (by simp)
  · rwa [withNoise_nil_left, List.append_nil] at h2
  · intro ns hns b hb
    rw [List.eq_of_mem_replicate hns] at hb
    simp at hb

set_option maxRecDepth 4096 in
theorem c3_witness :
    drain decId (withNoise [[0x00], [0x01, 0xFF]] [c2ubx, c3rtcm] ++ [0x07]) =
      .ok ([(c2ubx, c2ubx), (c3rtcm, c3rtcm)], [0x07]) ∧
    drain decId ([c2ubx, c3rtcm].flatten) =
      .ok ([(c2ubx, c2ubx), (c3rtcm, c3rtcm)], []) := by
  have h := c3_noise_tolerance decId id [c2ubx, c3rtcm] [[0x00], [0x01, 0xFF]]
    [0x07] rfl (by decide)
    (by
      intro f hf
      simp only [List.mem_cons, List.not_mem_nil, or_false] at hf
      rcases hf with h | h
      · subst h; rfl
      · subst h; rfl)
    (by decide) (by decide)
  exact ⟨h.1, h.2⟩

/-- C4: chunk invariance.  Feeding any chunking of a byte stream through
the read loop (append chunk, then drain, repeatedly) produces exactly
the emissions and final buffer of draining the whole stream at once —
in particular, one single chunk and any split at arbitrary byte
boundaries (including one byte at a time) yield the identical ordered
sequence of emitted (raw, parsed) results. -/
theorem c4_chunk_invariance {ε α : Type} (dec : Decoders ε α)
    (chunks : List (List Nat)) :
    feedChunks dec chunks [] = drain dec chunks.flatten := by
  have h := feedChunks_join chunks
    (show parse_buffer dec [] = .ok (none, []) from rfl)
  rwa [List.nil_append] at h

/-- C5: exact consumption.  A successful `parse_ubx` returns a raw frame
of exactly `2 + 4 + L + 2` bytes where `L` is the unsigned little-endian
value of bytes 3–4 of the 4-byte sub-header (buffer offsets `start+4`,
`start+5`); a successful `parse_nmea` returns a raw frame of exactly
`2 + j` bytes where `j` is the number of bytes scanned up to and
including the first CRLF terminator. -/
theorem c5_exact_consumption {ε α : Type} :
    (∀ (dec : List Nat → Except ε α) (buf : List Nat) (s : Nat)
        (hdr raw : List Nat) (p : α), hdr.length = 2 →
        parse_ubx dec buf s hdr = some (.ok (raw, p)) →
        raw.length = 2 + 4 + intFromBytesLE ((buf.drop (s + 4)).take 2) + 2) ∧
    (∀ (dec : List Nat → Except ε α) (buf : List Nat) (s : Nat)
        (hdr raw : List Nat) (p : α), hdr.length = 2 →
        parse_nmea dec buf s hdr = some (.ok (raw, p)) →
        ∃ j, raw.length = 2 + j ∧ nmeaWindow buf s j = CRLF_B ∧
          ∀ k, 1 ≤ k → k < j → nmeaWindow buf s k ≠ CRLF_B) := by
  constructor
  · intro dec buf s hdr raw p hh h
    obtain ⟨hb, hraw, _⟩ := parse_ubx_spec h
    rw [hraw, List.length_append, List.length_take, List.length_drop, hh]
    simp only [ubxLen] at hb ⊢
    omega
  · intro dec buf s hdr raw p hh h
    obtain ⟨j, hj1, hj2, hraw, hj4, hj5, _⟩ := parse_nmea_spec h
    refine ⟨j, ?_, hj4, hj5⟩
    rw [hraw, List.length_append, List.length_take, List.length_drop, hh]
    omega

theorem c5_witness :
    c2ubx.length = 2 + 4 + intFromBytesLE ((c2ubx.drop 4).take 2) + 2 ∧
    ∃ j, c2nmea.length = 2 + j ∧ nmeaWindow c2nmea 0 j = CRLF_B ∧
      ∀ k, 1 ≤ k → k < j → nmeaWindow c2nmea 0 k ≠ CRLF_B := by
  constructor
  · exact c5_exact_consumption.1 (fun r => (Except.ok r : Except Unit (List Nat)))
      c2ubx 0 (c2ubx.take 2) c2ubx c2ubx rfl rfl
  · exact c5_exact_consumption.2 (fun r => (Except.ok r : Except Unit (List Nat)))
      c2nmea 0 (c2nmea.take 2) c2nmea c2nmea rfl rfl

set_option maxRecDepth 8192 in
/-- C6: a successful `parse_rtcm` returns a raw frame of exactly
`2 + 1 + L + 3` bytes with `L = byte3 ||| (sync_byte2 <<< 8)` (byte3 the
byte at `start+2`, `sync_byte2` the second header byte), and under the
classification guard (upper six bits of the second byte zero) `L` is a
10-bit value, at most 1023, for byte-valued inputs. -/
theorem c6_rtcm_length {ε α : Type} (dec : List Nat → Except ε α)
    (buf : List Nat) (s : Nat) (hdr raw : List Nat) (p : α)
    (hh : hdr.length = 2)
    (h : parse_rtcm dec buf s hdr = some (.ok (raw, p))) :
    raw.length = 2 + 1 + (buf.getD (s + 2) 0 ||| (hdr.getD 1 0 <<< 8)) + 3 ∧
    (hdr.getD 1 0 &&& 0xFC = 0 → hdr.getD 1 0 < 256 →
      buf.getD (s + 2) 0 < 256 →
      buf.getD (s + 2) 0 ||| (hdr.getD 1 0 <<< 8) ≤ 1023) := by
  obtain ⟨hb, hraw, _⟩ := parse_rtcm_spec h
  constructor
  · rw [hraw, List.length_append, List.length_take, List.length_drop, hh]
    omega
  · intro h1 h2 h3
    have hlt : hdr.getD 1 0 < 4 := by
      have hdec : ∀ b < 256, b &&& 0xFC = 0 → b < 4 := by decide
      exact hdec _ h2 h1
    have hbound : ∀ b3 < 256, ∀ b2 < 4, b3 ||| (b2 <<< 8) ≤ 1023 := by decide
    exact hbound _ h3 _ hlt

theorem c6_witness :
    c3rtcm.length =
      2 + 1 + (c3rtcm.getD 2 0 ||| ((c3rtcm.take 2).getD 1 0 <<< 8)) + 3 ∧
    c3rtcm.getD 2 0 ||| ((c3rtcm.take 2).getD 1 0 <<< 8) ≤ 1023 := by
  have h := c6_rtcm_length (fun r => (Except.ok r : Except Unit (List Nat)))
    c3rtcm 0 (c3rtcm.take 2) c3rtcm c3rtcm rfl rfl
  exact ⟨h.1, h.2 (by decide) (by decide) (by decide)⟩

/-- C7: one scan step of `parse_buffer`.  A byte matching no recognized
first sync byte advances the cursor by exactly 1; when the first byte
matches, the 2-byte candidate is classified in priority order (UBX exact
header, then the NMEA header set, then RTCM3 requiring the second byte's
upper six bits zero), and when none matches the cursor advances by
exactly 2, consuming both peeked bytes as noise. -/
theorem c7_scan_step {ε α : Type} (dec : Decoders ε α) (buf byte2 : List Nat)
    (fuel s : Nat) (h : s < buf.length) :
    (¬(buf.getD s 0 = 0x24 ∨ buf.getD s 0 = 0xB5 ∨ buf.getD s 0 = 0xD3) →
      parseBufferAux dec buf (fuel + 1) s =
        parseBufferAux dec buf fuel (s + 1)) ∧
    ((buf.getD s 0 = 0x24 ∨ buf.getD s 0 = 0xB5 ∨ buf.getD s 0 = 0xD3) →
      readBytes buf (s + 1) 1 = some byte2 →
      ((([buf.getD s 0] ++ byte2) = UBX_HDR →
        parseBufferAux dec buf (fuel + 1) s =
          finishFrame buf s
            (parse_ubx dec.ubx buf s ([buf.getD s 0] ++ byte2))) ∧
      (¬ ([buf.getD s 0] ++ byte2) = UBX_HDR →
        ([buf.getD s 0] ++ byte2) ∈ NMEA_HDR →
        parseBufferAux dec buf (fuel + 1) s =
          finishFrame buf s
            (parse_nmea dec.nmea buf s ([buf.getD s 0] ++ byte2))) ∧
      (¬ ([buf.getD s 0] ++ byte2) = UBX_HDR →
        ¬ ([buf.getD s 0] ++ byte2) ∈ NMEA_HDR →
        buf.getD s 0 = 0xD3 ∧ (byte2.getD 0 0) &&& 0xFC = 0 →
        parseBufferAux dec buf (fuel + 1) s =
          finishFrame buf s
            (parse_rtcm dec.rtcm buf s ([buf.getD s 0] ++ byte2))) ∧
      (¬ ([buf.getD s 0] ++ byte2) = UBX_HDR →
        ¬ ([buf.getD s 0] ++ byte2) ∈ NMEA_HDR →
        ¬(buf.getD s 0 = 0xD3 ∧ (byte2.getD 0 0) &&& 0xFC = 0) →
        parseBufferAux dec buf (fuel + 1) s =
          parseBufferAux dec buf fuel (s + 2)))) := by
  refine ⟨fun h2 => aux_step_skip1 h h2, fun h2 h3 => ⟨?_, ?_, ?_, ?_⟩⟩
  · intro h4
    exact aux_step_ubx h h2 h3 h4
  · intro h4 h5
    exact aux_step_nmea h h2 h3 h4 h5
  · intro h4 h5 h6
    exact aux_step_rtcm h h2 h3 h4 h5 h6
  · intro h4 h5 h6
    exact aux_step_skip2 h h2 h3 h4 h5 h6

set_option maxRecDepth 4096 in
theorem c7_witness :
    parseBufferAux decId [0x00, 0xB5, 0xB5, 0x01] 4 0 =
      parseBufferAux decId [0x00, 0xB5, 0xB5, 0x01] 3 1 ∧
    parseBufferAux decId [0x00, 0xB5, 0xB5, 0x01] 3 1 =
      parseBufferAux decId [0x00, 0xB5, 0xB5, 0x01] 2 3 := by
  constructor
  · exact (c7_scan_step decId [0x00, 0xB5, 0xB5, 0x01] [] 3 0
      (by decide)).1 (by decide)
  · exact (((c7_scan_step decId [0x00, 0xB5, 0xB5, 0x01] [0xB5] 2 1
      (by decide)).2 (by decide) rfl).2.2.2) (by decide) (by decide) (by decide)

/-- C8: partial-frame stability.  Whenever `parse_buffer` emits nothing
(without a decoder exception), the returned buffer is the input buffer
unchanged; in particular, a valid frame with its last byte missing emits
nothing — from `parse_buffer` and the drain loop alike — and leaves the
buffer intact, and feeding the completed frame then emits it exactly. -/
theorem c8_partial_frame {ε α : Type} (dec : Decoders ε α) :
    (∀ buf b : List Nat, parse_buffer dec buf = .ok (none, b) → b = buf) ∧
    (∀ f : List Nat, IsFrame f →
      parse_buffer dec f.dropLast = .ok (none, f.dropLast) ∧
      drain dec f.dropLast = .ok ([], f.dropLast)) ∧
    (∀ (f : List Nat) (p : α), IsFrame f → frameDecoder dec f = .ok p →
      parse_buffer dec f = .ok (some (f, p), [])) := by
  refine ⟨fun buf b h => parse_buffer_none h,
    fun f hf => ⟨parse_buffer_dropLast hf,
      drain_none (parse_buffer_dropLast hf)⟩,
    fun f p hf hd => ?_⟩
  have h2 : parse_buffer dec ([] ++ f ++ []) = .ok (some (f, p), []) :=
    parse_buffer_emits (by intro b hb; simp at hb) hf hd
  rwa [List.nil_append, List.append_nil] at h2

theorem c8_witness :
    parse_buffer decId c2ubx.dropLast = .ok (none, c2ubx.dropLast) ∧
    drain decId c2ubx.dropLast = .ok ([], c2ubx.dropLast) ∧
    parse_buffer decId c2ubx = .ok (some (c2ubx, c2ubx), []) := by
  have h := c8_partial_frame decId
  have h2 := h.2.1 c2ubx (by decide)
  exact ⟨h2.1, h2.2, h.2.2 c2ubx c2ubx (by decide) rfl⟩

/-- C9: emission order.  The (raw, parsed) pairs a drain places on the
queue correspond, in order, to disjoint contiguous byte spans of the
buffer: each drain iteration extracts the first complete frame after the
scanned gap, enqueues it, and only then continues with the remaining
suffix, of which the returned remainder is the final tail. -/
theorem c9_emission_order {ε α : Type} (dec : Decoders ε α) (buf : List Nat)
    (es : List (List Nat × α)) (rem : List Nat)
    (h : drain dec buf = .ok (es, rem)) :
    SeqSlices buf (es.map Prod.fst) rem :=
  drain_slices (le_refl buf.length) h

set_option maxRecDepth 8192 in
theorem c9_witness :
    SeqSlices ([0x00] ++ c2ubx ++ c2nmea) [c2ubx, c2nmea] [] := by
  have h := c9_emission_order decId ([0x00] ++ c2ubx ++ c2nmea)
    [(c2ubx, c2ubx), (c2nmea, c2nmea)] [] (by rfl)
  exact h

/-- C10: invariant of every successful extraction.  The enqueued
`raw_data` is non-empty, its first two bytes form a recognized sync
header (UBX, a member of the NMEA header set, or `d3` with the second
byte's upper six bits zero), and the returned buffer is exactly the
suffix of the input starting at the scan position plus the raw length —
the bytes scanned over before the frame are dropped, never enqueued. -/
theorem c10_extraction_invariant {ε α : Type} (dec : Decoders ε α)
    (buf raw r : List Nat) (p : α)
    (h : parse_buffer dec buf = .ok (some (raw, p), r)) :
    raw ≠ [] ∧ ValidHdr (raw.take 2) ∧
    ∃ pos, pos + raw.length ≤ buf.length ∧
      raw = (buf.drop pos).take raw.length ∧
      r = buf.drop (pos + raw.length) := by
  obtain ⟨q, hq1, hq2, hq3, hq4, hq5, hq6⟩ := aux_some_spec h
  refine ⟨?_, hq6, q, hq3, hq4, hq5⟩
  intro hcon
  rw [hcon] at hq2
  simp at hq2

theorem c10_witness :
    c2ubx ≠ [] ∧ ValidHdr (c2ubx.take 2) ∧
    ∃ pos, pos + c2ubx.length ≤ ([0x07] ++ c2ubx).length ∧
      c2ubx = (([0x07] ++ c2ubx).drop pos).take c2ubx.length ∧
      ([] : List Nat) = ([0x07] ++ c2ubx).drop (pos + c2ubx.length) :=
  c10_extraction_invariant decId ([0x07] ++ c2ubx) c2ubx [] c2ubx rfl

end Claims

end SocketHandler
